import Mathlib

/-!
# Sit core: a shallow embedding of `src/Core.cc`

The orchestration functions of `Sit::Core` (`addFile`, `Add`, `getCommitMessage`, `amend`,
`Commit`, `Checkout`, `resetSingleFile`, `Reset`) are embedded as pure functions that pass the
repository state explicitly.  A function that can throw returns an `Outcome` together with the
state reached at the point of the throw, so that "nothing was changed" is a statement that has
to be proved and not a by-product of the encoding.

The collaborators whose code is not part of `Core.cc` (digest, serialisation of records,
refs, the index container, the file system) are either fields of `Env` (left abstract) or
small definitions modelled from the specification; each such definition says so.
-/

set_option autoImplicit false

namespace Sit

/-! ## Finite maps (`std::map<path, std::string>`, object directory, working tree) -/

/-- A finite map from strings to strings, kept as an association list.  Lookups return the
first entry with the key; `upsert` and `erase` keep the keys unique when they were. -/
abbrev Table := List (String × String)

/-- The value stored under `k`, if any (`std::map::find`). -/
def Table.find : Table → String → Option String
  | [], _ => none
  | (k', v) :: t, k => if k' = k then some v else Table.find t k

/-- Whether `k` is a key (`std::map::count(k) > 0`). -/
def Table.has (m : Table) (k : String) : Bool :=
  (m.find k).isSome

/-- Assign `v` to `k`: overwrite in place when the key exists, else add the entry
(`map[k] = v`). -/
def Table.upsert : Table → String → String → Table
  | [], k, v => [(k, v)]
  | (k', v') :: t, k, v => if k' = k then (k, v) :: t else (k', v') :: Table.upsert t k v

/-- Delete every entry with key `k` (`std::map::erase(k)`; no-op when absent). -/
def Table.erase (m : Table) (k : String) : Table :=
  m.filter (fun e => decide (e.1 ≠ k))

/-! ## `std::set<std::string>` -/

/-- The order of `std::string::operator<`: lexicographic on the characters. -/
def strLt (a b : String) : Bool :=
  decide (a.data < b.data)

/-- Insertion into a `std::set<std::string>`, kept as a strictly increasing list. -/
def setInsert (x : String) : List String → List String
  | [] => [x]
  | y :: ys => if x = y then y :: ys else if strLt x y then x :: y :: ys else y :: setInsert x ys

/-! ## Records and repository state -/

/-- `Objects::Commit`: the five fields of a commit record. -/
structure Objects.Commit where
  tree : String
  parent : String
  author : String
  committer : String
  message : String
deriving DecidableEq, Repr

/-- How a call ended.  `fatal` is a thrown `Util::SitException` (message, detail); `ioError`
is any other exception that leaves the function (a missing object or file); `timeout` is the
embedding's own value for a loop that was cut off by its fuel. -/
inductive Outcome where
  | ok
  | fatal (message detail : String)
  | ioError
  | timeout
deriving DecidableEq, Repr

/-- The state the core functions act on. -/
structure Repo where
  /-- Content of `.sit/HEAD` (`Refs::Get("HEAD")`). -/
  HEAD : String
  /-- Content of `.sit/refs/heads/master` (`Refs::Get(Refs::Local("master"))`). -/
  master : String
  /-- The in-memory singleton `Index::index`. -/
  index : Table
  /-- The index as last persisted by `Index::index.Save()`. -/
  indexFile : Table
  /-- The object directory: id to bytes. -/
  objects : Table
  /-- The working tree: repository-relative path to file content. -/
  work : Table
  /-- The key-value configuration read by `Config::Get`. -/
  config : Table
  /-- Content of `.sit/COMMIT_MSG`; `none` when it is not a regular file. -/
  COMMIT_MSG : Option String
  /-- Everything written to the report stream (`std::cout`). -/
  out : String
  /-- Everything written to `std::cerr`. -/
  err : String
deriving DecidableEq, Repr

/-- The collaborators of `Core.cc` whose code is elsewhere, taken as parameters. -/
structure Env where
  /-- `Refs::EMPTY_REF`. -/
  EMPTY_REF : String
  /-- `Config::NOT_FOUND`. -/
  NOT_FOUND : String
  /-- `Util::SHA1sum`. -/
  SHA1sum : String → String
  /-- `Util::SHA1Complete`: completes an abbreviated id against the object directory. -/
  SHA1Complete : Table → String → String
  /-- `Util::AuthorString (name, email, datetime)`. -/
  AuthorString : String → String → String → String
  /-- The bytes `Objects::WriteCommit` stores for a record. -/
  serializeCommit : Objects.Commit → String
  /-- The record `Objects::GetCommit` reads back from bytes. -/
  parseCommit : String → Option Objects.Commit
  /-- The bytes `Objects::WriteIndex` stores for an index. -/
  serializeIndex : Table → String
  /-- The index `Index::CommitIndex` reads back from the bytes of a tree. -/
  parseIndex : String → Option Table
  /-- `FileSystem::GetRelativePath`. -/
  GetRelativePath : String → String
  /-- The test behind `IndexBase::ListFile (prefix)`: does the entry path lie in the scope
  named by the first argument. -/
  underPath : String → String → Bool
  /-- `Status::IsClean`. -/
  IsClean : Repo → Bool
  /-- Whether `Util::SitException` derives from `std::exception`, that is, whether a
  `catch (const std::exception &)` clause catches it. -/
  SitExceptionIsStd : Bool
  /-- What `FileSystem::Read` yields for a path with no file: a content, or `none` when it
  throws. -/
  ReadAbsent : Option String
  /-- The text of `what()` for an exception caught while adding a file. -/
  what : String

/-! ## Objects, refs, config, index: the contracts consumed by the core -/

/-- Modelled from the spec: `Objects` is not part of `Core.cc`.  `put(bytes) → id` stores the
bytes under their digest and returns the digest. -/
def Objects.put (E : Env) (objects : Table) (bytes : String) : String × Table :=
  (E.SHA1sum bytes, objects.upsert (E.SHA1sum bytes) bytes)

/-- Modelled from the spec: `writeCommit(record) → id` serialises and stores a commit. -/
def Objects.WriteCommit (E : Env) (objects : Table) (commit : Objects.Commit) : String × Table :=
  Objects.put E objects (E.serializeCommit commit)

/-- Modelled from the spec: `readCommit(id) → record`; `none` stands for the failure of
`get(id)` on an absent object or of the deserialisation. -/
def Objects.GetCommit (E : Env) (objects : Table) (id : String) : Option Objects.Commit :=
  (objects.find id).bind E.parseCommit

/-- Modelled from the spec: `writeTree(index) → id` serialises and stores the index. -/
def Objects.WriteIndex (E : Env) (objects : Table) (index : Table) : String × Table :=
  Objects.put E objects (E.serializeIndex index)

/-- Modelled from the spec: `exists(id) → bool`. -/
def Objects.IsExist (objects : Table) (id : String) : Bool :=
  objects.has id

/-- Modelled from the spec: `CommitIndex` is the read-only index built by deserialising the
tree of the given commit; `none` when the commit or its tree cannot be read. -/
def CommitIndex (E : Env) (objects : Table) (id : String) : Option Table :=
  (Objects.GetCommit E objects id).bind
    (fun commit => (objects.find commit.tree).bind E.parseIndex)

/-- Modelled from the spec: `Config::Get (key)` returns the stored value or the
distinguished `NOT_FOUND` marker. -/
def Config.Get (E : Env) (config : Table) (key : String) : String :=
  (config.find key).getD E.NOT_FOUND

/-- Modelled from the spec: `listUnder(prefix) → entries`, the entries whose path lies in
the scope of the given path. -/
def ListFile (E : Env) (index : Table) (filename : String) : Table :=
  index.filter (fun e => E.underPath filename e.1)

/-- `FileSystem::Read` on a working-tree path.  The working tree is keyed by the path from
the repository root; `Reset` passes such a key as a bare path, which names that file in a run
from the repository root. -/
def FileSystem.Read (E : Env) (work : Table) (path : String) : Option String :=
  match work.find path with
  | some bytes => some bytes
  | none => E.ReadAbsent

/-- The characters `boost::io::quoted` writes for one character of a path: the escape
character `&` goes before a double quote and before `&` itself. -/
def quotedChar (c : Char) : List Char :=
  if c = Char.ofNat 34 ∨ c = Char.ofNat 38 then [Char.ofNat 38, c] else [c]

/-- The text `operator<<` writes for a `boost::filesystem::path`: the path between double
quotes, as `boost::io::quoted` with the escape character `&` writes it. -/
def pathText (p : String) : String :=
  "\"" ++ String.mk (p.data.flatMap quotedChar) ++ "\""

/-! ## `getCommitMessage` -/

/-- The characters `boost::trim` removes (`std::isspace` in the classic locale). -/
def isSpace (c : Char) : Bool :=
  c == ' ' || c == '\t' || c == '\n' || c == '\x0b' || c == '\x0c' || c == '\r'

/-- The successive results of `std::getline (in, line)` on a text: the pieces between line
feeds; a text that ends in a line feed has no extra empty last line, and the empty text has
no line. -/
def getlines : List Char → List (List Char)
  | [] => []
  | c :: cs =>
    if c = '\n' then [] :: getlines cs
    else match getlines cs with
      | [] => [[c]]
      | l :: ls => (c :: l) :: ls

/-- The function `boost::trim`: drop the white space at both ends. -/
def trim (l : List Char) : List Char :=
  ((l.dropWhile isSpace).reverse.dropWhile isSpace).reverse

/-- The body of the `while (getline (in, line))` loop of `getCommitMessage`, with the flag
`empty` as the first argument; the result is what is appended to `out`. -/
def messageLoop : Bool → List (List Char) → List Char
  | _, [] => []
  | empty, line :: rest =>
    if trim line = [] then
      (if empty then [] else ['\n']) ++ messageLoop empty rest
    else if (trim line).head? ≠ some '#' then
      trim line ++ ['\n'] ++ messageLoop false rest
    else messageLoop empty rest

/-- `getCommitMessage ()`, as a function of the content of `.sit/COMMIT_MSG`. -/
def getCommitMessage (text : String) : String :=
  String.mk (messageLoop true (getlines text.data))

/-- The first character of a line that is not white space, if any. -/
def firstChar (l : List Char) : Option Char :=
  (l.dropWhile isSpace).head?

/-- Whether a list of lines has two neighbouring lines that are both blank. -/
def hasBlankRun : List (List Char) → Bool
  | a :: b :: rest => (a.all isSpace && b.all isSpace) || hasBlankRun (b :: rest)
  | _ => false

/-! ## `amend` and `Commit` -/

/-- The first loop of `amend`: starting at `id`, collect `(id, commit)` and move to the
parent until `oldid` is met.  The list is in the order of `push_back`, newest first.  A
commit that cannot be read ends the walk with the exception; the fuel bounds the number of
commits read. -/
def amendCollect (E : Env) (objects : Table) (oldid : String) :
    Nat → String → Except Outcome (List (String × Objects.Commit))
  | 0, id => if id = oldid then .ok [] else .error .timeout
  | fuel + 1, id =>
    if id = oldid then .ok []
    else match Objects.GetCommit E objects id with
      | none => .error .ioError
      | some commit =>
        match amendCollect E objects oldid fuel commit.parent with
        | .ok olds => .ok ((id, commit) :: olds)
        | .error e => .error e

/-- The second loop of `amend`: go through `olds` from its last element to its first
(`rbegin` to `rend`), give each commit the parent `last`, write it, and carry the new id.
The result is the final `last` and the object directory. -/
def amendRewrite (E : Env) (newid : String) (objects : Table) :
    List (String × Objects.Commit) → String × Table
  | [] => (newid, objects)
  | (_, commit) :: older =>
    let step := amendRewrite E newid objects older
    Objects.WriteCommit E step.2 { commit with parent := step.1 }

/-- The function `amend (oldid, newid)`. -/
def amend (E : Env) (fuel : Nat) (oldid newid : String) (r : Repo) : Outcome × Repo :=
  match amendCollect E r.objects oldid fuel r.master with
  | .error e => (e, r)
  | .ok olds =>
    let res := amendRewrite E newid r.objects olds
    (.ok, { r with objects := res.2, master := res.1 })

/-- The function `Commit (msg, isAmend)`; `datetime` is the reading of the local clock. -/
def Commit (E : Env) (fuel : Nat) (datetime msg : String) (isAmend : Bool) (r : Repo) :
    Outcome × Repo :=
  let headref := r.HEAD
  let masterref := r.master
  if headref ≠ masterref ∧ isAmend = false then
    (.fatal "HEAD is not up-to-date with master. Cannot commit." "", r)
  else match r.COMMIT_MSG with
    | none => (.fatal "Commit message not found." "", r)
    | some text =>
      let message := if msg = "" then getCommitMessage text else msg
      if message = "" then (.fatal "Commit message is empty." "", r)
      else
        let user_name := Config.Get E r.config "user.name"
        if user_name = E.NOT_FOUND then
          (.fatal "Config `user.name` not found." "config: user.name", r)
        else
          let user_email := Config.Get E r.config "user.email"
          if user_email = E.NOT_FOUND then
            (.fatal "Config `user.email` not found." "config: user.email", r)
          else
            let author := E.AuthorString user_name user_email datetime
            let committer := E.AuthorString user_name user_email datetime
            let parent? :=
              if isAmend = false then some masterref
              else (Objects.GetCommit E r.objects headref).map (fun oldcommit => oldcommit.parent)
            match parent? with
            | none => (.ioError, r)
            | some parent =>
              let wi := Objects.WriteIndex E r.objects r.index
              let commit : Objects.Commit :=
                { tree := wi.1, parent := parent, author := author, committer := committer,
                  message := message }
              let wc := Objects.WriteCommit E wi.2 commit
              let id := wc.1
              let r1 : Repo := { r with objects := wc.2 }
              if isAmend = false then
                (.ok, { r1 with master := id, HEAD := id })
              else match amend E fuel headref id r1 with
                | (.ok, r2) => (.ok, { r2 with HEAD := id })
                | (e, r2) => (e, r2)

/-- The walk of `Log ("master")`: the `(id, commit)` pairs met from `id` by `parent` until
`EMPTY_REF`; `none` when a commit cannot be read or the fuel runs out first. -/
def Log (E : Env) (objects : Table) : Nat → String → Option (List (String × Objects.Commit))
  | 0, id => if id = E.EMPTY_REF then some [] else none
  | fuel + 1, id =>
    if id = E.EMPTY_REF then some []
    else match Objects.GetCommit E objects id with
      | none => none
      | some commit => (Log E objects fuel commit.parent).map (fun l => (id, commit) :: l)

/-! ## `addFile` and `Add` -/

/-- What the file system answers about one path of the list that
`FileSystem::ListRecursive` returned. -/
structure FileEntry where
  /-- The path itself. -/
  path : String
  /-- `FileSystem::IsDirectory (file)`. -/
  IsDirectory : Bool
  /-- `boost::filesystem::file_size (file)`; `none` when it throws `filesystem_error`. -/
  file_size : Option Nat
  /-- `FileSystem::Read (file)`, also the bytes `SafeCopyFile` copies; `none` when reading
  or copying throws. -/
  content : Option String
deriving DecidableEq, Repr

/-- The function `addFile (file)`: the outcome, the returned string and the state. -/
def addFile (E : Env) (file : FileEntry) (r : Repo) : Outcome × String × Repo :=
  if file.IsDirectory then (.ok, "", r)
  else match file.file_size with
    | none => (.ok, "", { r with err := r.err ++ E.what ++ "\n" })
    | some fileSize =>
      let r1 : Repo :=
        if fileSize > 100 <<< 20 then
          { r with err := r.err ++ "Warning : Try to add a file larger than 100MB\n" }
        else r
      if fileSize > 200 <<< 20 then
        if E.SitExceptionIsStd then (.ok, "", { r1 with err := r1.err ++ E.what ++ "\n" })
        else (.fatal "Fatal: Try to add a file larger than 200MB" file.path, "", r1)
      else match file.content with
        | none => (.ok, "", { r1 with err := r1.err ++ E.what ++ "\n" })
        | some bytes =>
          let sha1Value := E.SHA1sum bytes
          (.ok, sha1Value,
            { r1 with objects := r1.objects.upsert sha1Value bytes,
                      out := r1.out ++ pathText file.path ++ " added.\n" })

/-- The `for` loop of `Add` over the file list. -/
def AddLoop (E : Env) : List FileEntry → Repo → Outcome × Repo
  | [], r => (.ok, r)
  | file :: rest, r =>
    if file.IsDirectory then AddLoop E rest r
    else
      let relativePath := E.GetRelativePath file.path
      match addFile E file r with
      | (.ok, sha1Value, r1) =>
        AddLoop E rest { r1 with index := r1.index.upsert relativePath sha1Value }
      | (e, _, r1) => (e, r1)

/-- The function `Add (path)`, given the list `FileSystem::ListRecursive (path, true, false)`
returned. -/
def Add (E : Env) (fileList : List FileEntry) (r : Repo) : Outcome × Repo :=
  match AddLoop E fileList r with
  | (.ok, r1) => (.ok, { r1 with indexFile := r1.index })
  | (e, r1) => (e, r1)

/-! ## `Checkout` -/

/-- The call `FileSystem::SafeCopyFile (Objects::GetPath (id), REPO_ROOT / dst)`: the
working-tree file `dst` gets the bytes of object `id`; `none` when the object is absent. -/
def copyObject (id dst : String) (r : Repo) : Option Repo :=
  match r.objects.find id with
  | none => none
  | some bytes => some { r with work := r.work.upsert dst bytes }

/-- The loop of the whole-repository checkout: copy each blob and insert the entry. -/
def checkoutAll : Table → Repo → Outcome × Repo
  | [], r => (.ok, r)
  | item :: rest, r =>
    match copyObject item.2 item.1 r with
    | none => (.ioError, r)
    | some r1 => checkoutAll rest { r1 with index := r1.index.upsert item.1 item.2 }

/-- The loop of the path-scoped checkout over `fileList`: copy each blob. -/
def checkoutList : Table → Repo → Outcome × Repo
  | [], r => (.ok, r)
  | singleFile :: rest, r =>
    match copyObject singleFile.2 singleFile.1 r with
    | none => (.ioError, r)
    | some r1 => checkoutList rest r1

/-- The function `Checkout (commitid, filename)`.  A reported error (a line on `std::cerr`
followed by `return`) ends with outcome `ok`. -/
def Checkout (E : Env) (commitid filename : String) (r : Repo) : Outcome × Repo :=
  let commitid := E.SHA1Complete r.objects commitid
  if commitid ≠ "" ∧ Objects.IsExist r.objects commitid = false then
    (.ok, { r with err := r.err ++ "Error: Commit " ++ commitid ++ " doesn't exist.\n" })
  else
    let filename := if filename ≠ "" then E.GetRelativePath filename else filename
    let index? := if commitid = "" then some r.index else CommitIndex E r.objects commitid
    match index? with
    | none => (.ioError, r)
    | some idx =>
      if filename = "" then
        if E.IsClean r = false then
          (.ok, { r with err := r.err ++
            "Error: You have something staged. Commit or reset before checkout.\n" })
        else match checkoutAll idx { r with index := [] } with
          | (.ok, r1) => (.ok, { r1 with indexFile := r1.index, HEAD := commitid })
          | (e, r1) => (e, r1)
      else if filename.data.getLast? ≠ some '/' ∧ idx.has filename = true then
        match idx.find filename with
        | none => (.ioError, r)
        | some objpath =>
          match copyObject objpath filename r with
          | none => (.ioError, r)
          | some r1 => (.ok, r1)
      else
        let fileList := ListFile E idx filename
        if fileList ≠ [] then checkoutList fileList r
        else (.ok, { r with err := r.err ++ "Error: " ++ filename ++
          " doesn't exist in file list" })

/-! ## `resetSingleFile` and `Reset` -/

/-- The function `resetSingleFile`; the report stream is `Repo.out`. -/
def resetSingleFile (E : Env) (id filename : String) (commitIndex : Table)
    (inCommit inIndex isHard : Bool) (r : Repo) : Outcome × Repo :=
  let r0 : Repo := { r with out := r.out ++ "  " ++ pathText filename }
  if inCommit = true ∧ inIndex = false then
    match commitIndex.find filename with
    | none => (.ioError, { r0 with out := r0.out ++ " >>> index\n" })
    | some cid =>
      let r1 : Repo :=
        { r0 with out := r0.out ++ " >>> index\n", index := r0.index.upsert filename cid }
      if isHard then
        match Checkout E id filename r1 with
        | (.ok, r2) => (.ok, { r2 with indexFile := r2.index })
        | (e, r2) => (e, r2)
      else (.ok, { r1 with indexFile := r1.index })
  else if inCommit = false ∧ inIndex = true then
    let r1 : Repo :=
      { r0 with out := r0.out ++ " <<< index\n", index := r0.index.erase filename }
    if isHard then
      let r2 : Repo := { r1 with work := r1.work.erase filename }
      (.ok, { r2 with indexFile := r2.index })
    else (.ok, { r1 with indexFile := r1.index })
  else if inCommit = true ∧ inIndex = true then
    match commitIndex.find filename with
    | none => (.ioError, { r0 with out := r0.out ++ " = " })
    | some cid =>
      let r1 : Repo :=
        { r0 with out := r0.out ++ " = " ++ cid ++ "\n",
                  index := (r0.index.erase filename).upsert filename cid }
      if isHard then
        match Checkout E id filename r1 with
        | (.ok, r2) => (.ok, { r2 with indexFile := r2.index })
        | (e, r2) => (e, r2)
      else (.ok, { r1 with indexFile := r1.index })
  else
    (.ok, { r0 with err := r0.err ++ "Error: " ++ filename ++ " is not tracked\n" })

/-- The last loop of `Reset`, over the elements of `allSet` in increasing order. -/
def resetLoop (E : Env) (id : String) (commitIndex : Table) (commitSet indexSet : List String)
    (isHard : Bool) : List String → Repo → Outcome × Repo
  | [], r => (.ok, r)
  | anyfile :: rest, r =>
    let inCommit := decide (anyfile ∈ commitSet)
    let inIndex := decide (anyfile ∈ indexSet)
    let next := fun (r : Repo) =>
      match resetSingleFile E id anyfile commitIndex inCommit inIndex isHard r with
      | (.ok, r1) => resetLoop E id commitIndex commitSet indexSet isHard rest r1
      | (e, r1) => (e, r1)
    if inCommit = true ∧ inIndex = true then
      match FileSystem.Read E r.work anyfile with
      | none => (.ioError, r)
      | some bytes =>
        match r.index.find anyfile with
        | none => (.ioError, r)
        | some iid =>
          if E.SHA1sum bytes = iid then
            match commitIndex.find anyfile with
            | none => (.ioError, r)
            | some cid =>
              if cid = iid then resetLoop E id commitIndex commitSet indexSet isHard rest r
              else next r
          else next r
    else next r

/-- The function `Reset (stream, id, filename, isHard)`, with `Repo.out` as the stream. -/
def Reset (E : Env) (id filename : String) (isHard : Bool) (r : Repo) : Outcome × Repo :=
  let id :=
    if id = "master" then r.master
    else if id = "HEAD" ∨ id = "" then r.HEAD
    else id
  let id := E.SHA1Complete r.objects id
  let filename := if filename ≠ "" then E.GetRelativePath filename else filename
  match CommitIndex E r.objects id with
  | none => (.ioError, r)
  | some commitIndex =>
    let commitList := ListFile E commitIndex filename
    let indexList := ListFile E r.index filename
    let commitSet := commitList.foldl (fun s e => setInsert e.1 s) []
    let indexSet := indexList.foldl (fun s e => setInsert e.1 s) []
    let allSet := indexList.foldl (fun s e => setInsert e.1 s) commitSet
    resetLoop E id commitIndex commitSet indexSet isHard allSet r

/-! ## Predicates used in the statements -/

/-- The digest has no collisions. -/
def Env.CollisionFree (E : Env) : Prop :=
  ∀ a b, E.SHA1sum a = E.SHA1sum b → a = b

/-- A commit record is read back from its serialisation. -/
def Env.CommitRoundTrip (E : Env) : Prop :=
  ∀ c, E.parseCommit (E.serializeCommit c) = some c

/-- `EMPTY_REF` is not the digest of anything. -/
def Env.DigestNotEmptyRef (E : Env) : Prop :=
  ∀ bytes, E.SHA1sum bytes ≠ E.EMPTY_REF

/-- Every object of the directory is stored under the digest of its bytes. -/
def StoreWF (E : Env) (objects : Table) : Prop :=
  ∀ id bytes, objects.find id = some bytes → id = E.SHA1sum bytes

/-- `IsChain E objects id l`: walking the parent pointers from `id` reads exactly the
commits of `l` (each paired with its id, newest first) and then arrives at `EMPTY_REF`. -/
def IsChain (E : Env) (objects : Table) : String → List (String × Objects.Commit) → Prop
  | id, [] => id = E.EMPTY_REF
  | id, e :: rest =>
    id ≠ E.EMPTY_REF ∧ e.1 = id ∧ Objects.GetCommit E objects id = some e.2
      ∧ IsChain E objects e.2.parent rest

/-- Two commit records that differ at most in their parent. -/
def SameButParent (o w : String × Objects.Commit) : Prop :=
  w.2.tree = o.2.tree ∧ w.2.author = o.2.author ∧ w.2.committer = o.2.committer
    ∧ w.2.message = o.2.message

/-- `s'` has every object of `s`, with the same bytes. -/
def Table.le (s s' : Table) : Prop :=
  ∀ id x, s.find id = some x → s'.find id = some x

/-- The keys of a snapshot are paths of files relative to the repository root: not empty,
not ending in a slash, and left as they are by `GetRelativePath`. -/
def FilePaths (E : Env) (t : Table) : Prop :=
  ∀ p, t.find p ≠ none → p ≠ "" ∧ p.data.getLast? ≠ some '/' ∧ E.GetRelativePath p = p

/-- The keys of a table are pairwise different, as those of a `std::map` are. -/
def UniqueKeys (t : Table) : Prop :=
  (t.map Prod.fst).Nodup

/-! ## `GarbageCollection` -/

/-- Modelled from the spec: `Objects::ListExistedObjects` is not part of `Core.cc`.
`listAll() → set<id>`: the id of every object physically present. -/
def Objects.ListExistedObjects (objects : Table) : List String :=
  objects.map Prod.fst

/-- Modelled from the spec: the tree of a commit, read as the mapping from path to blob id
(`readTree`); `none` when the tree object is absent or cannot be deserialised. -/
def Objects.GetTree (E : Env) (objects : Table) (commit : Objects.Commit) : Option Table :=
  (objects.find commit.tree).bind E.parseIndex

/-- Modelled from the spec: `Objects::ListReferedObjects` is not part of `Core.cc`.  The
reachable set is derived by walking the commit chain of master by `parent` pointers to the
root sentinel; every visited commit contributes its own id, its tree object and every blob id
named in that tree.  A commit or tree that cannot be read ends the walk with the exception;
the fuel bounds the number of commits visited. -/
def Objects.ListReferedObjects (E : Env) (objects : Table) :
    Nat → String → Except Outcome (List String)
  | 0, id => if id = E.EMPTY_REF then .ok [] else .error .timeout
  | fuel + 1, id =>
    if id = E.EMPTY_REF then .ok []
    else match Objects.GetCommit E objects id with
      | none => .error .ioError
      | some commit =>
        match Objects.GetTree E objects commit with
        | none => .error .ioError
        | some tree =>
          match Objects.ListReferedObjects E objects fuel commit.parent with
          | .ok refs => .ok (id :: commit.tree :: (tree.map Prod.snd ++ refs))
          | .error e => .error e

/-- Modelled from the spec: `Objects::Remove`, `remove(id)`: deletion of one object. -/
def Objects.Remove (objects : Table) (id : String) : Table :=
  objects.erase id

/-- The `for` loop of `GarbageCollection` over `existedList`. -/
def gcLoop (refereddList : List String) : List String → Table → Table
  | [], objects => objects
  | element :: rest, objects =>
    if element ∈ refereddList then gcLoop refereddList rest objects
    else gcLoop refereddList rest (Objects.Remove objects element)

/-- The function `GarbageCollection ()`. -/
def GarbageCollection (E : Env) (fuel : Nat) (r : Repo) : Outcome × Repo :=
  let existedList := Objects.ListExistedObjects r.objects
  match Objects.ListReferedObjects E r.objects fuel r.master with
  | .error e => (e, r)
  | .ok refereddList => (.ok, { r with objects := gcLoop refereddList existedList r.objects })

/-- The ids a commit of the chain refers to: itself, its tree, and the blobs of the tree. -/
def RefersTo (E : Env) (objects : Table) (e : String × Objects.Commit) (id : String) : Prop :=
  id = e.1 ∨ id = e.2.tree
    ∨ ∃ tree p, Objects.GetTree E objects e.2 = some tree ∧ (p, id) ∈ tree

/-- `PlainHistory E n r`: the state `r` is reached from a freshly initialised repository by
`n` successful plain commits.  Between the commits the refs are not touched and objects are
only added, the object directory staying keyed by digest (what `Add` does). -/
inductive PlainHistory (E : Env) : Nat → Repo → Prop
  | init (r : Repo) : r.HEAD = E.EMPTY_REF → r.master = E.EMPTY_REF → r.objects = [] →
      PlainHistory E 0 r
  | stage (n : Nat) (r r1 : Repo) : PlainHistory E n r → r1.HEAD = r.HEAD →
      r1.master = r.master → Table.le r.objects r1.objects → StoreWF E r1.objects →
      PlainHistory E n r1
  | commit (n : Nat) (r r' : Repo) (fuel : Nat) (datetime msg : String) :
      PlainHistory E n r → Commit E fuel datetime msg false r = (.ok, r') →
      PlainHistory E (n + 1) r'

/-- The ids on which the first loop of `amend` calls `Objects::GetCommit`, in the order of the
calls: the loop reads the commit of every `id` that is not `oldid`, and a read that fails is
the last one.  The fuel bounds the number of calls as in `amendCollect`. -/
def amendReads (E : Env) (objects : Table) (oldid : String) : Nat → String → List String
  | 0, _ => []
  | fuel + 1, id =>
    if id = oldid then []
    else match Objects.GetCommit E objects id with
      | none => [id]
      | some commit => id :: amendReads E objects oldid fuel commit.parent

/-! ## A concrete environment -/

namespace Demo

/-- Pairing of two character lists: the length of the first in unary, a bar, then both. -/
def enc2 (a b : List Char) : List Char :=
  List.replicate a.length 'x' ++ '|' :: (a ++ b)

/-- Inverse of `enc2`. -/
def dec2 (s : List Char) : List Char × List Char :=
  let n := (s.takeWhile (fun c => c == 'x')).length
  ((s.drop (n + 1)).take n, (s.drop (n + 1)).drop n)

/-- A serialisation of commit records that can be read back. -/
def serializeCommit (c : Objects.Commit) : String :=
  String.mk (enc2 c.tree.data (enc2 c.parent.data (enc2 c.author.data
    (enc2 c.committer.data c.message.data))))

/-- Reads back `serializeCommit`. -/
def parseCommit (s : String) : Option Objects.Commit :=
  let d1 := dec2 s.data
  let d2 := dec2 d1.2
  let d3 := dec2 d2.2
  let d4 := dec2 d3.2
  some { tree := String.mk d1.1, parent := String.mk d2.1, author := String.mk d3.1,
         committer := String.mk d4.1, message := String.mk d4.2 }

/-- A serialisation of an index: one line `path=id` per entry. -/
def serializeIndex (t : Table) : String :=
  String.mk (t.flatMap (fun e => e.1.data ++ '=' :: e.2.data ++ ['\n']))

/-- Reads back `serializeIndex` for paths without `=` and ids without line feed. -/
def parseIndex (s : String) : Option Table :=
  some ((getlines s.data).map (fun l =>
    (String.mk (l.takeWhile (fun c => c != '=')),
     String.mk ((l.dropWhile (fun c => c != '=')).drop 1))))

/-- The scope test of `ListFile`: everything for the empty path, else the path itself or a
path below it. -/
def underPath (p q : String) : Bool :=
  p == "" || p == q || (p.data ++ ['/']).isPrefixOf q.data

/-- An environment whose digest is injective: the digest of `s` is `s` after the letter h. -/
def env : Env where
  EMPTY_REF := "0"
  NOT_FOUND := ""
  SHA1sum := fun s => String.mk ('h' :: s.data)
  SHA1Complete := fun _ id => id
  AuthorString := fun n e d => n ++ " <" ++ e ++ "> " ++ d
  serializeCommit := serializeCommit
  parseCommit := parseCommit
  serializeIndex := serializeIndex
  parseIndex := parseIndex
  GetRelativePath := fun p => p
  underPath := underPath
  IsClean := fun r => r.index == r.indexFile
  SitExceptionIsStd := false
  ReadAbsent := none
  what := "error"

/-- A freshly initialised repository with an identity configured. -/
def fresh : Repo where
  HEAD := "0"
  master := "0"
  index := []
  indexFile := []
  objects := []
  work := []
  config := [("user.name", "ann"), ("user.email", "ann@x")]
  COMMIT_MSG := some ""
  out := ""
  err := ""

/-- A root commit. -/
def c1 : Objects.Commit :=
  { tree := "t", parent := "0", author := "a", committer := "a", message := "m" }

/-- The id of `c1`. -/
def id1 : String :=
  env.SHA1sum (env.serializeCommit c1)

/-- A commit on top of `c1`. -/
def c2 : Objects.Commit :=
  { tree := "t", parent := id1, author := "a", committer := "a", message := "n" }

/-- The id of `c2`. -/
def id2 : String :=
  env.SHA1sum (env.serializeCommit c2)

/-- A repository with the history `c1 ← c2`, master at `c2` and HEAD at `c1`. -/
def detached : Repo :=
  { fresh with HEAD := id1, master := id2,
               objects := [(id1, env.serializeCommit c1), (id2, env.serializeCommit c2)] }

/-- A file of 250 MiB. -/
def bigFile : FileEntry :=
  { path := "big.bin", IsDirectory := false, file_size := some (250 * 2 ^ 20), content := some "" }
/-- A regular file whose reading fails. -/
def unreadable : FileEntry :=
  { path := "a.txt", IsDirectory := false, file_size := some 5, content := none }
/-- A regular file with two bytes. -/
def small : FileEntry :=
  { path := "b.txt", IsDirectory := false, file_size := some 2, content := some "bb" }
/-- A directory. -/
def dir : FileEntry :=
  { path := "d", IsDirectory := true, file_size := none, content := none }
/-- A repository whose index has an entry for `a.txt`. -/
def staged : Repo :=
  { fresh with index := [("a.txt", "hold")], indexFile := [("a.txt", "hold")] }

/-- The snapshot of the commit `k1`. -/
def tree1 : Table :=
  [("a.txt", "hhello")]

/-- The id of the tree object of `tree1`. -/
def treeId : String :=
  env.SHA1sum (env.serializeIndex tree1)

/-- A root commit with the snapshot `tree1`. -/
def k1 : Objects.Commit :=
  { tree := treeId, parent := "0", author := "a", committer := "a", message := "m" }

/-- The id of `k1`. -/
def kid1 : String :=
  env.SHA1sum (env.serializeCommit k1)

/-- A repository at commit `k1` in which `a.txt` was modified and `b.txt` was added, both
staged. -/
def modified : Repo :=
  { fresh with
    HEAD := kid1, master := kid1,
    index := [("a.txt", "hhello2"), ("b.txt", "hbb")],
    indexFile := [("a.txt", "hhello2"), ("b.txt", "hbb")],
    objects := [("hhello", "hello"), ("hhello2", "hello2"), ("hbb", "bb"),
                (treeId, env.serializeIndex tree1), (kid1, env.serializeCommit k1)],
    work := [("a.txt", "hello2"), ("b.txt", "bb")] }

/-- A second root commit, not an ancestor of `c2`. -/
def c3 : Objects.Commit :=
  { tree := "t", parent := "0", author := "a", committer := "a", message := "z" }

/-- The id of `c3`. -/
def id3 : String :=
  env.SHA1sum (env.serializeCommit c3)

/-- A repository with the history `c1 ← c2` of master and HEAD at the commit `c3`, which is
not on that chain. -/
def offchain : Repo :=
  { fresh with HEAD := id3, master := id2,
               objects := [(id1, env.serializeCommit c1), (id2, env.serializeCommit c2),
                           (id3, env.serializeCommit c3)] }

/-- The environment of a run whose current directory is `sub`, one level below the
repository root: `GetRelativePath` puts `sub/` before a bare path. -/
def envSub : Env :=
  { env with GetRelativePath := fun p => "sub/" ++ p }

/-- A repository at commit `k1` in which `a.txt` was modified and then taken out of the
index: the index is empty and the working file holds `hello2`. -/
def unstaged : Repo :=
  { modified with index := [], indexFile := [], work := [("a.txt", "hello2")] }

end Demo

/-! # Properties -/

/-! ## Lemmas on finite maps -/

theorem Table.find_upsert (m : Table) (k v k' : String) :
    (m.upsert k v).find k' = if k = k' then some v else m.find k' := by
  induction m with
  | nil => simp [Table.upsert, Table.find]
  | cons e t ih =>
    obtain ⟨a, b⟩ := e
    by_cases h : a = k
    · subst h
      by_cases h' : a = k' <;> simp [Table.upsert, Table.find, h']
    · by_cases h' : a = k'
      · subst h'
        have : ¬ k = a := fun e => h e.symm
        simp [Table.upsert, Table.find, h, this]
      · simp [Table.upsert, Table.find, h, h', ih]

theorem Table.find_erase (m : Table) (k k' : String) :
    (m.erase k).find k' = if k = k' then none else m.find k' := by
  induction m with
  | nil => simp [Table.erase, Table.find]
  | cons e t ih =>
    obtain ⟨a, b⟩ := e
    have hcons : Table.erase ((a, b) :: t) k
        = if a = k then Table.erase t k else (a, b) :: Table.erase t k := by
      by_cases h : a = k <;> simp [Table.erase, List.filter_cons, h]
    rw [hcons]
    by_cases h : a = k
    · subst h
      by_cases h' : a = k'
      · subst h'
        simpa using ih
      · simp [ih, h', Table.find]
    · by_cases h' : a = k'
      · subst h'
        have : ¬ k = a := fun e => h e.symm
        simp [Table.find, h, this]
      · simp [Table.find, h, h', ih]

/-! ## Lemmas on `getCommitMessage` -/

theorem getlines_line_append (l rest : List Char) (h : '\n' ∉ l) :
    getlines (l ++ '\n' :: rest) = l :: getlines rest := by
  induction l with
  | nil => simp [getlines]
  | cons c l ih =>
    have hc : c ≠ '\n' := fun e => h (by simp [e])
    have hl : '\n' ∉ l := fun e => h (by simp [e])
    simp [getlines, hc, ih hl]

theorem getlines_no_newline (s : List Char) : ∀ l ∈ getlines s, '\n' ∉ l := by
  induction s with
  | nil => simp [getlines]
  | cons c cs ih =>
    intro l hl
    by_cases hc : c = '\n'
    · simp [getlines, hc] at hl
      rcases hl with rfl | hl
      · simp
      · exact ih l hl
    · simp only [getlines, hc, if_false] at hl
      cases hg : getlines cs with
      | nil =>
        rw [hg] at hl
        simp at hl
        subst hl
        simpa using fun e => hc e.symm
      | cons l0 ls =>
        rw [hg] at hl ih
        simp at hl
        rcases hl with rfl | hl
        · have := ih l0 (by simp)
          simp only [List.mem_cons, not_or]
          exact ⟨fun e => hc e.symm, this⟩
        · exact ih l (by simp [hl])

theorem mem_of_mem_trim (l : List Char) (c : Char) (h : c ∈ trim l) : c ∈ l := by
  unfold trim at h
  rw [List.mem_reverse] at h
  have h1 := (List.dropWhile_sublist isSpace).subset h
  rw [List.mem_reverse] at h1
  exact (List.dropWhile_sublist isSpace).subset h1

theorem dropWhile_append_last (p : Char → Bool) (xs : List Char) (c : Char) (h : p c = false) :
    (xs ++ [c]).dropWhile p = xs.dropWhile p ++ [c] := by
  induction xs with
  | nil => simp [List.dropWhile, h]
  | cons x xs ih =>
    by_cases hx : p x = true
    · simp [List.dropWhile, hx, ih]
    · simp [List.dropWhile, hx]

theorem head_dropWhile_not (p : Char → Bool) (l : List Char) (c : Char)
    (h : (l.dropWhile p).head? = some c) : p c = false := by
  induction l with
  | nil => simp at h
  | cons x xs ih =>
    by_cases hx : p x = true
    · simp [List.dropWhile, hx] at h
      exact ih h
    · simp [List.dropWhile, hx] at h
      subst h
      simpa using hx

theorem trim_head (l : List Char) : (trim l).head? = firstChar l := by
  unfold trim firstChar
  cases hd : l.dropWhile isSpace with
  | nil => simp
  | cons c t =>
    have hc : isSpace c = false := head_dropWhile_not isSpace l c (by simp [hd])
    rw [List.reverse_cons, dropWhile_append_last _ _ _ hc]
    simp

theorem trim_eq_nil_iff (l : List Char) : trim l = [] ↔ firstChar l = none := by
  rw [← trim_head]
  cases trim l <;> simp

theorem firstChar_trim (l : List Char) : firstChar (trim l) = firstChar l := by
  cases ht : trim l with
  | nil =>
    have := (trim_eq_nil_iff l).1 ht
    rw [this]; rfl
  | cons c t =>
    have h1 : firstChar l = some c := by rw [← trim_head, ht]; rfl
    have hc : isSpace c = false := head_dropWhile_not isSpace l c h1
    rw [h1]
    simp [firstChar, List.dropWhile, hc]

theorem getlines_messageLoop (empty : Bool) (ls : List (List Char))
    (h : ∀ l ∈ ls, '\n' ∉ l) :
    getlines (messageLoop empty ls) =
      if empty then
        ((ls.map trim).filter (fun l => l.head? != some '#')).dropWhile (fun l => l.isEmpty)
      else (ls.map trim).filter (fun l => l.head? != some '#') := by
  induction ls generalizing empty with
  | nil => cases empty <;> simp [messageLoop, getlines]
  | cons line rest ih =>
    have hrest : ∀ l ∈ rest, '\n' ∉ l := fun l hl => h l (by simp [hl])
    have hline : '\n' ∉ trim line := fun e => h line (by simp) (mem_of_mem_trim _ _ e)
    by_cases ht : trim line = []
    · cases empty
      · simp [messageLoop, ht, getlines, ih false hrest]
      · simp [messageLoop, ht, ih true hrest]
    · by_cases hc : (trim line).head? = some '#'
      · simp [messageLoop, ht, hc, ih empty hrest]
      · have hout : messageLoop empty (line :: rest)
            = trim line ++ '\n' :: messageLoop false rest := by
          simp [messageLoop, ht, hc]
        rw [hout, getlines_line_append _ _ hline, ih false hrest]
        cases empty <;> simp [hc, ht]

theorem filter_dropWhile_isEmpty (F : List (List Char)) :
    (F.dropWhile (fun l => l.isEmpty)).filter (fun l => !l.isEmpty)
      = F.filter (fun l => !l.isEmpty) := by
  induction F with
  | nil => rfl
  | cons a t ih =>
    by_cases ha : a.isEmpty = true
    · simp [List.dropWhile, ha, ih]
    · simp [List.dropWhile, ha]

/-- C5 (amended): the lines of the result of `getCommitMessage` are the trimmed lines of the
text without the lines whose first character after trimming is `#` and without the blank lines
that come before the first kept non-blank line; every later blank line is kept.  Hence no
line of the result has `#` as its first non-white-space character, and the non-blank lines of
the result are the trimmed non-blank non-comment lines of the text, in their order. -/
theorem getCommitMessage_lines (text : String) :
    getlines (getCommitMessage text).data
        = (((getlines text.data).map trim).filter (fun l => l.head? != some '#')).dropWhile
            (fun l => l.isEmpty)
    ∧ (∀ l ∈ getlines (getCommitMessage text).data, firstChar l ≠ some '#')
    ∧ (getlines (getCommitMessage text).data).filter (fun l => !l.isEmpty)
        = ((getlines text.data).filter
            (fun l => firstChar l != none && firstChar l != some '#')).map trim := by
  have hmain : getlines (getCommitMessage text).data
      = (((getlines text.data).map trim).filter (fun l => l.head? != some '#')).dropWhile
          (fun l => l.isEmpty) := by
    have := getlines_messageLoop true (getlines text.data) (getlines_no_newline _)
    simpa [getCommitMessage] using this
  refine ⟨hmain, ?_, ?_⟩
  · intro l hl
    rw [hmain] at hl
    have h1 := (List.dropWhile_sublist _).subset hl
    rw [List.mem_filter, List.mem_map] at h1
    obtain ⟨⟨l0, _, rfl⟩, hne⟩ := h1
    rw [firstChar_trim, ← trim_head]
    simpa using hne
  · rw [hmain, filter_dropWhile_isEmpty, List.filter_filter, List.filter_map]
    congr 1
    apply List.filter_congr
    intro l _
    have h1 := trim_head l
    have h2 := trim_eq_nil_iff l
    simp only [Function.comp]
    cases ht : trim l with
    | nil =>
      have := h2.1 ht
      simp [this]
    | cons c t =>
      rw [ht] at h1
      simp at h1
      simp [← h1]

/-- C5 (counterexample): on the text `a`, blank, blank, `b` the result keeps both blank
lines, so it has two consecutive blank lines. -/
theorem getCommitMessage_keeps_blank_run :
    getCommitMessage "a\n\n\nb" = "a\n\n\nb\n"
    ∧ hasBlankRun (getlines (getCommitMessage "a\n\n\nb").data) = true := by
  decide

/-! ## `Commit`: guards, refs and the plain commit -/

theorem amendCollect_error (E : Env) (objects : Table) (oldid : String) (fuel : Nat) (id : String)
    (e : Outcome) (h : amendCollect E objects oldid fuel id = .error e) :
    e = .ioError ∨ e = .timeout := by
  induction fuel generalizing id with
  | zero =>
    unfold amendCollect at h
    split at h
    · cases h
    · cases h; exact Or.inr rfl
  | succ n ih =>
    unfold amendCollect at h
    split at h
    · cases h
    · split at h
      · cases h; exact Or.inl rfl
      · rename_i commit _
        cases hrec : amendCollect E objects oldid n commit.parent with
        | ok olds => rw [hrec] at h; cases h
        | error e' =>
          rw [hrec] at h
          cases h
          exact ih _ hrec

theorem amend_outcome (E : Env) (fuel : Nat) (oldid newid : String) (r : Repo) :
    (amend E fuel oldid newid r).1 = .ok ∨ (amend E fuel oldid newid r).1 = .ioError
      ∨ (amend E fuel oldid newid r).1 = .timeout := by
  unfold amend
  cases h : amendCollect E r.objects oldid fuel r.master with
  | ok olds => simp
  | error e =>
    rcases amendCollect_error _ _ _ _ _ _ h with rfl | rfl <;> simp

theorem amend_outcome_of_eq (E : Env) (fuel : Nat) (oldid newid : String) (r r2 : Repo)
    (e : Outcome) (h : amend E fuel oldid newid r = (e, r2)) :
    e = .ok ∨ e = .ioError ∨ e = .timeout := by
  have := amend_outcome E fuel oldid newid r
  rw [h] at this
  exact this

theorem messageLoop_eq_nil_iff (ls : List (List Char)) :
    messageLoop true ls = [] ↔ ∀ l ∈ ls, firstChar l = none ∨ firstChar l = some '#' := by
  induction ls with
  | nil => simp [messageLoop]
  | cons line rest ih =>
    by_cases ht : trim line = []
    · have h0 : firstChar line = none := (trim_eq_nil_iff line).1 ht
      simp [messageLoop, ht, ih, h0]
    · have h0 : firstChar line ≠ none := fun e => ht ((trim_eq_nil_iff line).2 e)
      by_cases hc : (trim line).head? = some '#'
      · have h1 : firstChar line = some '#' := by rw [← trim_head]; exact hc
        simp [messageLoop, ht, hc, ih, h1]
      · have h1 : firstChar line ≠ some '#' := by rw [← trim_head]; exact hc
        simp [messageLoop, ht, hc, h0, h1]

theorem getCommitMessage_eq_empty_iff (text : String) :
    getCommitMessage text = "" ↔
      ∀ l ∈ getlines text.data, firstChar l = none ∨ firstChar l = some '#' := by
  rw [← messageLoop_eq_nil_iff]
  unfold getCommitMessage
  constructor
  · intro h
    have := congrArg String.data h
    simpa using this
  · intro h
    rw [h]

/-- Every `fatal` end of `Commit` leaves the state as it was. -/
theorem Commit_fatal_state (E : Env) (fuel : Nat) (datetime msg : String) (isAmend : Bool)
    (r : Repo) (m d : String) (h : (Commit E fuel datetime msg isAmend r).1 = .fatal m d) :
    (Commit E fuel datetime msg isAmend r).2 = r := by
  by_cases hg : r.HEAD ≠ r.master ∧ isAmend = false
  · simp [Commit, hg]
  · cases hmsg : r.COMMIT_MSG with
    | none => simp [Commit, hg, hmsg]
    | some text =>
      by_cases h1 : (if msg = "" then getCommitMessage text else msg) = ""
      · simp [Commit, hg, hmsg, h1]
      · by_cases h2 : Config.Get E r.config "user.name" = E.NOT_FOUND
        · simp [Commit, hg, hmsg, h1, h2]
        · by_cases h3 : Config.Get E r.config "user.email" = E.NOT_FOUND
          · simp [Commit, hg, hmsg, h1, h2, h3]
          · cases isAmend with
            | false =>
              have hh : r.HEAD = r.master := by simpa using hg
              simp [Commit, hh, hmsg, h1, h2, h3] at h
            | true =>
              cases h4 : Objects.GetCommit E r.objects r.HEAD with
              | none => simp [Commit, hmsg, h1, h2, h3, h4]
              | some old =>
                simp only [Commit, hmsg, h1, h2, h3, h4, Bool.true_eq_false, and_false,
                  if_false, Option.map_some'] at h ⊢
                split at h
                · simp at h
                · rename_i e r2 hne heq
                  have := amend_outcome_of_eq _ _ _ _ _ _ _ heq
                  simp only at h
                  simp [h] at this

theorem amendCollect_self (E : Env) (objects : Table) (oldid : String) (fuel : Nat) :
    amendCollect E objects oldid fuel oldid = .ok [] := by
  cases fuel <;> simp [amendCollect]

theorem amend_ok (E : Env) (fuel : Nat) (oldid newid : String) (r r2 : Repo)
    (h : amend E fuel oldid newid r = (.ok, r2)) :
    ∃ olds, amendCollect E r.objects oldid fuel r.master = .ok olds
      ∧ r2 = { r with objects := (amendRewrite E newid r.objects olds).2,
                      master := (amendRewrite E newid r.objects olds).1 } := by
  unfold amend at h
  cases hc : amendCollect E r.objects oldid fuel r.master with
  | ok olds =>
    rw [hc] at h
    simp only [Prod.mk.injEq, true_and] at h
    exact ⟨olds, rfl, h.symm⟩
  | error e =>
    rw [hc] at h
    simp only [Prod.mk.injEq] at h
    rcases amendCollect_error _ _ _ _ _ _ hc with rfl | rfl <;> simp at h

/-- C2 (amended): after a successful `Commit`, HEAD is the id of the commit record that was
just written.  After a plain commit master is that id too.  After an amend master is the last
id produced by the rewrite of the collected commits; it is equal to HEAD when HEAD and master
were equal before the call. -/
theorem Commit_refs (E : Env) (fuel : Nat) (datetime msg : String) (isAmend : Bool)
    (r r' : Repo) (h : Commit E fuel datetime msg isAmend r = (.ok, r')) :
    ∃ commit : Objects.Commit,
      r'.HEAD = E.SHA1sum (E.serializeCommit commit)
      ∧ commit.tree = E.SHA1sum (E.serializeIndex r.index)
      ∧ (isAmend = false → r'.master = r'.HEAD)
      ∧ (isAmend = true → ∃ olds,
          amendCollect E
            (Objects.WriteCommit E (Objects.WriteIndex E r.objects r.index).2 commit).2
            r.HEAD fuel r.master = .ok olds
          ∧ r'.master = (amendRewrite E r'.HEAD
            (Objects.WriteCommit E (Objects.WriteIndex E r.objects r.index).2 commit).2 olds).1)
      ∧ (isAmend = true → r.HEAD = r.master → r'.master = r'.HEAD) := by
  by_cases hg : r.HEAD ≠ r.master ∧ isAmend = false
  · simp [Commit, hg] at h
  · cases hmsg : r.COMMIT_MSG with
    | none => simp [Commit, hg, hmsg] at h
    | some text =>
      by_cases h1 : (if msg = "" then getCommitMessage text else msg) = ""
      · simp [Commit, hg, hmsg, h1] at h
      · by_cases h2 : Config.Get E r.config "user.name" = E.NOT_FOUND
        · simp [Commit, hg, hmsg, h1, h2] at h
        · by_cases h3 : Config.Get E r.config "user.email" = E.NOT_FOUND
          · simp [Commit, hg, hmsg, h1, h2, h3] at h
          · cases isAmend with
            | false =>
              have hh : r.HEAD = r.master := by simpa using hg
              simp only [Commit, hh, hmsg, h1, h2, h3, ne_eq, not_true_eq_false, false_and,
                if_false, if_true, Prod.mk.injEq, true_and] at h
              subst h
              exact ⟨_, rfl, rfl, fun _ => rfl, fun hc => Bool.noConfusion hc,
                fun hc => Bool.noConfusion hc⟩
            | true =>
              cases h4 : Objects.GetCommit E r.objects r.HEAD with
              | none => simp [Commit, hmsg, h1, h2, h3, h4] at h
              | some old =>
                simp only [Commit, hmsg, h1, h2, h3, h4, Bool.true_eq_false, and_false,
                  if_false, Option.map_some'] at h
                split at h
                · rename_i r2 heq
                  simp only [Prod.mk.injEq, true_and] at h
                  obtain ⟨olds, hcol, hr2⟩ := amend_ok _ _ _ _ _ _ heq
                  subst hr2
                  subst h
                  refine ⟨_, rfl, rfl, fun hc => Bool.noConfusion hc, fun _ => ⟨olds, hcol, rfl⟩, ?_⟩
                  intro _ hhm
                  simp only at hcol
                  rw [hhm, amendCollect_self] at hcol
                  cases hcol
                  rfl
                · rename_i e r2 hne heq
                  simp only [Prod.mk.injEq] at h
                  exact absurd h.1 (hne · )

set_option maxRecDepth 100000 in
/-- C2 (witness): the amend of `Demo.detached` is successful, and `Commit_refs` applies. -/
theorem Commit_refs_witness :
    ∃ commit : Objects.Commit,
      (Commit Demo.env 1 "d" "m2" true Demo.detached).2.HEAD
        = Demo.env.SHA1sum (Demo.env.serializeCommit commit) :=
  (Commit_refs Demo.env 1 "d" "m2" true Demo.detached
    (Commit Demo.env 1 "d" "m2" true Demo.detached).2 (by decide)).imp (fun _ h => h.1)

set_option maxRecDepth 100000 in
/-- C2 (counterexample): with the history `c1 ← c2`, master at `c2` and HEAD at `c1`, an
amend succeeds and leaves HEAD and master different. -/
theorem Commit_amend_head_master_differ :
    (Commit Demo.env 1 "d" "m2" true Demo.detached).1 = .ok
    ∧ (Commit Demo.env 1 "d" "m2" true Demo.detached).2.HEAD
        ≠ (Commit Demo.env 1 "d" "m2" true Demo.detached).2.master := by
  decide

/-- C3 (amended): when HEAD = master, the supplied message is not empty, both identity
values are configured and `.sit/COMMIT_MSG` is a regular file, `Commit (msg, false)` succeeds:
it stores a commit record whose parent is the old master, whose tree is the digest of the
serialised index, whose author and committer are equal and whose message is `msg`, and sets
master and HEAD to the id of that record; the index is not changed. -/
theorem Commit_plain (E : Env) (fuel : Nat) (datetime msg : String) (r : Repo) (text : String)
    (hhead : r.HEAD = r.master) (hmsg : msg ≠ "") (hfile : r.COMMIT_MSG = some text)
    (hname : Config.Get E r.config "user.name" ≠ E.NOT_FOUND)
    (hemail : Config.Get E r.config "user.email" ≠ E.NOT_FOUND) :
    ∃ (commit : Objects.Commit) (r' : Repo),
      Commit E fuel datetime msg false r = (.ok, r')
      ∧ commit.parent = r.master
      ∧ commit.tree = E.SHA1sum (E.serializeIndex r.index)
      ∧ commit.author = commit.committer
      ∧ commit.message = msg
      ∧ r'.objects.find (E.SHA1sum (E.serializeCommit commit)) = some (E.serializeCommit commit)
      ∧ r'.master = E.SHA1sum (E.serializeCommit commit)
      ∧ r'.HEAD = E.SHA1sum (E.serializeCommit commit)
      ∧ r'.index = r.index ∧ r'.indexFile = r.indexFile := by
  have hrun : Commit E fuel datetime msg false r =
      (.ok, { r with
        objects := ((r.objects.upsert (E.SHA1sum (E.serializeIndex r.index))
            (E.serializeIndex r.index)).upsert
          (E.SHA1sum (E.serializeCommit
            { tree := E.SHA1sum (E.serializeIndex r.index), parent := r.master,
              author := E.AuthorString (Config.Get E r.config "user.name")
                (Config.Get E r.config "user.email") datetime,
              committer := E.AuthorString (Config.Get E r.config "user.name")
                (Config.Get E r.config "user.email") datetime,
              message := msg }))
          (E.serializeCommit
            { tree := E.SHA1sum (E.serializeIndex r.index), parent := r.master,
              author := E.AuthorString (Config.Get E r.config "user.name")
                (Config.Get E r.config "user.email") datetime,
              committer := E.AuthorString (Config.Get E r.config "user.name")
                (Config.Get E r.config "user.email") datetime,
              message := msg })),
        master := E.SHA1sum (E.serializeCommit
            { tree := E.SHA1sum (E.serializeIndex r.index), parent := r.master,
              author := E.AuthorString (Config.Get E r.config "user.name")
                (Config.Get E r.config "user.email") datetime,
              committer := E.AuthorString (Config.Get E r.config "user.name")
                (Config.Get E r.config "user.email") datetime,
              message := msg }),
        HEAD := E.SHA1sum (E.serializeCommit
            { tree := E.SHA1sum (E.serializeIndex r.index), parent := r.master,
              author := E.AuthorString (Config.Get E r.config "user.name")
                (Config.Get E r.config "user.email") datetime,
              committer := E.AuthorString (Config.Get E r.config "user.name")
                (Config.Get E r.config "user.email") datetime,
              message := msg }) }) := by
    simp [Commit, hhead, hmsg, hfile, hname, hemail, Objects.WriteCommit, Objects.WriteIndex,
      Objects.put]
  refine ⟨_, _, hrun, rfl, rfl, rfl, rfl, ?_, rfl, rfl, rfl, rfl⟩
  simp [Table.find_upsert]

set_option maxRecDepth 100000 in
/-- C3 (witness): the first commit of a fresh repository. -/
theorem Commit_plain_witness :
    ∃ (commit : Objects.Commit) (r' : Repo),
      Commit Demo.env 0 "d" "first" false Demo.fresh = (.ok, r')
      ∧ commit.parent = Demo.fresh.master
      ∧ commit.tree = Demo.env.SHA1sum (Demo.env.serializeIndex Demo.fresh.index)
      ∧ commit.author = commit.committer
      ∧ commit.message = "first"
      ∧ r'.objects.find (Demo.env.SHA1sum (Demo.env.serializeCommit commit))
          = some (Demo.env.serializeCommit commit)
      ∧ r'.master = Demo.env.SHA1sum (Demo.env.serializeCommit commit)
      ∧ r'.HEAD = Demo.env.SHA1sum (Demo.env.serializeCommit commit)
      ∧ r'.index = Demo.fresh.index ∧ r'.indexFile = Demo.fresh.indexFile :=
  Commit_plain Demo.env 0 "d" "first" Demo.fresh "" (by decide) (by decide) (by decide)
    (by decide) (by decide)

/-- C3 (counterexample): with HEAD = master, a message and both identity values, but
without the file `.sit/COMMIT_MSG`, the commit fails and nothing is written. -/
theorem Commit_plain_needs_message_file :
    Commit Demo.env 0 "d" "first" false { Demo.fresh with COMMIT_MSG := none }
      = (.fatal "Commit message not found." "", { Demo.fresh with COMMIT_MSG := none }) := by
  decide

/-- C4: when HEAD differs from master, `Commit (msg, false)` throws the
HEAD-not-up-to-date error whatever the message and the configuration are, and the whole state
(HEAD, master, index, objects) is as before; `Commit (msg, true)` never ends with that
error. -/
theorem Commit_detached_guard (E : Env) (fuel : Nat) (datetime msg : String) (r : Repo)
    (h : r.HEAD ≠ r.master) :
    Commit E fuel datetime msg false r
        = (.fatal "HEAD is not up-to-date with master. Cannot commit." "", r)
    ∧ ∀ detail, (Commit E fuel datetime msg true r).1
        ≠ .fatal "HEAD is not up-to-date with master. Cannot commit." detail := by
  constructor
  · simp [Commit, h]
  · intro detail
    cases hmsg : r.COMMIT_MSG with
    | none => simp [Commit, hmsg]
    | some text =>
      by_cases h1 : (if msg = "" then getCommitMessage text else msg) = ""
      · simp [Commit, hmsg, h1]
      · by_cases h2 : Config.Get E r.config "user.name" = E.NOT_FOUND
        · simp [Commit, hmsg, h1, h2]
        · by_cases h3 : Config.Get E r.config "user.email" = E.NOT_FOUND
          · simp [Commit, hmsg, h1, h2, h3]
          · cases h4 : Objects.GetCommit E r.objects r.HEAD with
            | none => simp [Commit, hmsg, h1, h2, h3, h4]
            | some old =>
              simp only [Commit, hmsg, h1, h2, h3, h4, Bool.true_eq_false, and_false, if_false,
                Option.map_some']
              split
              · simp
              · rename_i e r2 hne heq
                have := amend_outcome_of_eq _ _ _ _ _ _ _ heq
                intro hfat
                simp only at hfat
                simp [hfat] at this

/-- C4 (witness): a repository whose HEAD is behind master. -/
theorem Commit_detached_guard_witness :
    Commit Demo.env 0 "d" "m" false Demo.detached
        = (.fatal "HEAD is not up-to-date with master. Cannot commit." "", Demo.detached)
    ∧ ∀ detail, (Commit Demo.env 0 "d" "m" true Demo.detached).1
        ≠ .fatal "HEAD is not up-to-date with master. Cannot commit." detail :=
  Commit_detached_guard Demo.env 0 "d" "m" Demo.detached (by decide)

/-- C6 (amended): in a call that passes the HEAD/master guard and finds the file
`.sit/COMMIT_MSG`: with no message supplied, `Commit` throws the empty-message error exactly
when the text has no line that is non-blank and does not start with `#`; with a non-empty
message and `user.name` missing it throws the error naming `user.name`; with a non-empty
message, `user.name` present and `user.email` missing it throws the error naming
`user.email`; and any thrown `SitException` leaves the whole state as it was. -/
theorem Commit_preconditions (E : Env) (fuel : Nat) (datetime msg : String) (isAmend : Bool)
    (r : Repo) (text : String)
    (hguard : r.HEAD = r.master ∨ isAmend = true) (hfile : r.COMMIT_MSG = some text) :
    (msg = "" →
      ((Commit E fuel datetime msg isAmend r).1 = .fatal "Commit message is empty." "" ↔
        ∀ l ∈ getlines text.data, firstChar l = none ∨ firstChar l = some '#'))
    ∧ ((if msg = "" then getCommitMessage text else msg) ≠ "" →
        Config.Get E r.config "user.name" = E.NOT_FOUND →
        (Commit E fuel datetime msg isAmend r).1
          = .fatal "Config `user.name` not found." "config: user.name")
    ∧ ((if msg = "" then getCommitMessage text else msg) ≠ "" →
        Config.Get E r.config "user.name" ≠ E.NOT_FOUND →
        Config.Get E r.config "user.email" = E.NOT_FOUND →
        (Commit E fuel datetime msg isAmend r).1
          = .fatal "Config `user.email` not found." "config: user.email")
    ∧ (∀ m d, (Commit E fuel datetime msg isAmend r).1 = .fatal m d →
        (Commit E fuel datetime msg isAmend r).2 = r) := by
  have hg : ¬ (r.HEAD ≠ r.master ∧ isAmend = false) := by
    rcases hguard with h | h
    · simp [h]
    · simp [h]
  refine ⟨?_, ?_, ?_, fun m d h => Commit_fatal_state E fuel datetime msg isAmend r m d h⟩
  · intro hm
    subst hm
    rw [← getCommitMessage_eq_empty_iff]
    by_cases h1 : getCommitMessage text = ""
    · simp [Commit, hg, hfile, h1]
    · simp only [h1, iff_false]
      by_cases h2 : Config.Get E r.config "user.name" = E.NOT_FOUND
      · simp [Commit, hg, hfile, h1, h2]
      · by_cases h3 : Config.Get E r.config "user.email" = E.NOT_FOUND
        · simp [Commit, hg, hfile, h1, h2, h3]
        · cases isAmend with
          | false =>
            have hh : r.HEAD = r.master := by simpa using hg
            simp [Commit, hh, hfile, h1, h2, h3]
          | true =>
            cases h4 : Objects.GetCommit E r.objects r.HEAD with
            | none => simp [Commit, hfile, h1, h2, h3, h4]
            | some old =>
              simp only [Commit, hfile, h1, h2, h3, h4, Bool.true_eq_false, and_false,
                if_false, Option.map_some', if_true]
              split
              · simp
              · rename_i e r2 hne heq
                have := amend_outcome_of_eq _ _ _ _ _ _ _ heq
                intro hfat
                simp only at hfat
                simp [hfat] at this
  · intro h1 h2
    simp [Commit, hg, hfile, h1, h2]
  · intro h1 h2 h3
    simp [Commit, hg, hfile, h1, h2, h3]

/-- C6 (witness): a fresh repository, no message supplied, empty `COMMIT_MSG`. -/
theorem Commit_preconditions_witness :
    (Commit Demo.env 0 "d" "" false Demo.fresh).1 = .fatal "Commit message is empty." "" ↔
      ∀ l ∈ getlines ("" : String).data, firstChar l = none ∨ firstChar l = some '#' :=
  (Commit_preconditions Demo.env 0 "d" "" false Demo.fresh "" (Or.inl rfl) rfl).1 rfl

/-- C6 (counterexample): `user.name` is missing, but no message is supplied and the staged
text is empty, so the error is the empty-message error and does not name the key. -/
theorem Commit_missing_name_empty_message :
    Config.Get Demo.env ({ Demo.fresh with config := [] } : Repo).config "user.name"
        = Demo.env.NOT_FOUND
    ∧ (Commit Demo.env 0 "d" "" false { Demo.fresh with config := [] }).1
        = .fatal "Commit message is empty." "" := by
  decide

/-! ## The concrete environment satisfies the assumptions on the digest -/

theorem Demo.takeWhile_replicate_bar (n : Nat) (t : List Char) :
    (List.replicate n 'x' ++ '|' :: t).takeWhile (fun c => c == 'x') = List.replicate n 'x' := by
  induction n with
  | zero => simp [List.takeWhile]
  | succ n ih => simp [List.replicate_succ, List.takeWhile, ih]

theorem Demo.dec2_enc2 (a b : List Char) : Demo.dec2 (Demo.enc2 a b) = (a, b) := by
  unfold Demo.dec2 Demo.enc2
  simp only [Demo.takeWhile_replicate_bar, List.length_replicate]
  have h : List.drop (a.length + 1) (List.replicate a.length 'x' ++ '|' :: (a ++ b)) = a ++ b := by
    have := @List.drop_append Char (List.replicate a.length 'x') ('|' :: (a ++ b)) 1
    simpa using this
  rw [h]
  simp

theorem Demo.env_collisionFree : Demo.env.CollisionFree := by
  intro a b h
  have h2 : 'h' :: a.data = 'h' :: b.data := congrArg String.data h
  exact String.ext (List.cons.inj h2).2

theorem Demo.env_commitRoundTrip : Demo.env.CommitRoundTrip := by
  intro c
  show Demo.parseCommit (Demo.serializeCommit c) = some c
  simp [Demo.parseCommit, Demo.serializeCommit, Demo.dec2_enc2]

theorem Demo.env_digestNotEmptyRef : Demo.env.DigestNotEmptyRef := by
  intro b h
  have h2 : 'h' :: b.data = ['0'] := congrArg String.data h
  exact absurd (List.cons.inj h2).1 (by decide)


theorem StoreWF_of_forall (E : Env) (s : Table) (h : ∀ e ∈ s, e.1 = E.SHA1sum e.2) :
    StoreWF E s := by
  induction s with
  | nil => intro id b hb; simp [Table.find] at hb
  | cons e t ih =>
    intro id b hb
    obtain ⟨k, v⟩ := e
    by_cases hk : k = id
    · simp [Table.find, hk] at hb
      subst hb; subst hk
      exact h (k, v) (by simp)
    · simp [Table.find, hk] at hb
      exact ih (fun e he => h e (by simp [he])) id b hb

theorem Demo.detached_wf : StoreWF Demo.env Demo.detached.objects :=
  StoreWF_of_forall _ _ (by decide)

/-! ## `amend`: the rewritten chain -/

theorem Log_eq_some_iff (E : Env) (s : Table) (n : Nat) (id : String)
    (l : List (String × Objects.Commit)) :
    Log E s n id = some l ↔ IsChain E s id l ∧ l.length ≤ n := by
  induction n generalizing id l with
  | zero =>
    by_cases h : id = E.EMPTY_REF
    · cases l with
      | nil => simp [Log, IsChain, h]
      | cons e t => simp [Log, IsChain, h]
    · cases l with
      | nil => simp [Log, IsChain, h]
      | cons e t => simp [Log, IsChain, h]
  | succ n ih =>
    by_cases h : id = E.EMPTY_REF
    · cases l with
      | nil => simp [Log, IsChain, h]
      | cons e t => simp [Log, IsChain, h]
    · cases l with
      | nil =>
        simp only [Log, h, if_false, IsChain, false_and, iff_false]
        cases Objects.GetCommit E s id with
        | none => simp
        | some c => simp
      | cons e t =>
        obtain ⟨i, c⟩ := e
        simp only [Log, h, if_false, IsChain, ne_eq, not_false_eq_true, true_and,
          List.length_cons, Nat.add_le_add_iff_right]
        cases hg : Objects.GetCommit E s id with
        | none => simp
        | some c' =>
          simp only [Option.map_eq_some', List.cons.injEq, Prod.mk.injEq, Option.some.injEq]
          constructor
          · rintro ⟨l', hl', ⟨rfl, rfl⟩, rfl⟩
            have := (ih _ _).1 hl'
            exact ⟨⟨rfl, rfl, this.1⟩, this.2⟩
          · rintro ⟨⟨rfl, rfl, hc⟩, hlen⟩
            exact ⟨t, (ih _ _).2 ⟨hc, hlen⟩, ⟨rfl, rfl⟩, rfl⟩

theorem IsChain_unique (E : Env) (s : Table) (id : String)
    (l₁ l₂ : List (String × Objects.Commit)) (h₁ : IsChain E s id l₁) (h₂ : IsChain E s id l₂) :
    l₁ = l₂ := by
  induction l₁ generalizing id l₂ with
  | nil =>
    cases l₂ with
    | nil => rfl
    | cons e t => exact absurd h₁ h₂.1
  | cons e t ih =>
    cases l₂ with
    | nil => exact absurd h₂ h₁.1
    | cons e' t' =>
      obtain ⟨_, hid, hg, hc⟩ := h₁
      obtain ⟨_, hid', hg', hc'⟩ := h₂
      have he2 : e.2 = e'.2 := by
        rw [hg] at hg'
        exact Option.some.inj hg'
      have he : e = e' := Prod.ext (hid.trans hid'.symm) he2
      subst he
      rw [ih _ _ hc hc']

theorem IsChain_suffix (E : Env) (s : Table) (id x : String) (c : Objects.Commit)
    (a l₂ : List (String × Objects.Commit)) (h : IsChain E s id (a ++ (x, c) :: l₂)) :
    IsChain E s x ((x, c) :: l₂) := by
  induction a generalizing id with
  | nil =>
    have hx : x = id := h.2.1
    subst hx
    exact h
  | cons e t ih => exact ih _ h.2.2.2

theorem IsChain_ids_ne (E : Env) (s : Table) (id x : String) (c : Objects.Commit)
    (l₁ l₂ : List (String × Objects.Commit)) (h : IsChain E s id (l₁ ++ (x, c) :: l₂)) :
    ∀ e ∈ l₁, e.1 ≠ x := by
  induction l₁ generalizing id with
  | nil => simp
  | cons e0 t ih =>
    intro e he
    rcases List.mem_cons.1 he with rfl | he
    · intro hex
      have hid : e.1 = id := h.2.1
      have hxid : x = id := hex.symm.trans hid
      subst hxid
      have h2 := IsChain_suffix E s x x c (e :: t) l₂ h
      have := congrArg List.length (IsChain_unique E s x _ _ h h2)
      simp at this
      omega
    · exact ih _ h.2.2.2 e he

theorem IsChain_mono (E : Env) (s s' : Table) (hle : Table.le s s') (id : String)
    (l : List (String × Objects.Commit)) (h : IsChain E s id l) : IsChain E s' id l := by
  induction l generalizing id with
  | nil => exact h
  | cons e t ih =>
    obtain ⟨h1, h2, h3, h4⟩ := h
    refine ⟨h1, h2, ?_, ih _ h4⟩
    unfold Objects.GetCommit at h3 ⊢
    cases hf : s.find id with
    | none => simp [hf] at h3
    | some x => rw [hle _ _ hf]; rw [hf] at h3; exact h3

theorem put_le (E : Env) (hinj : E.CollisionFree) (s : Table) (hwf : StoreWF E s)
    (bytes : String) : Table.le s (Objects.put E s bytes).2 := by
  intro id x hx
  simp only [Objects.put, Table.find_upsert]
  by_cases h : E.SHA1sum bytes = id
  · have h1 := hwf id x hx
    rw [← h] at h1
    have h2 := hinj _ _ h1
    rw [if_pos h, h2]
  · simp [h, hx]

theorem put_wf (E : Env) (s : Table) (hwf : StoreWF E s) (bytes : String) :
    StoreWF E (Objects.put E s bytes).2 := by
  intro id x hx
  simp only [Objects.put, Table.find_upsert] at hx
  by_cases h : E.SHA1sum bytes = id
  · simp [h] at hx
    rw [← hx, h]
  · simp [h] at hx
    exact hwf id x hx

theorem GetCommit_WriteCommit (E : Env) (hrt : E.CommitRoundTrip) (s : Table)
    (c : Objects.Commit) :
    Objects.GetCommit E (Objects.WriteCommit E s c).2 (Objects.WriteCommit E s c).1 = some c := by
  simp [Objects.GetCommit, Objects.WriteCommit, Objects.put, Table.find_upsert, hrt c]

theorem Table.le_trans (a b c : Table) (h₁ : Table.le a b) (h₂ : Table.le b c) :
    Table.le a c :=
  fun id x hx => h₂ id x (h₁ id x hx)

theorem amendCollect_chain (E : Env) (s : Table) (x : String) (c : Objects.Commit)
    (l₁ l₂ : List (String × Objects.Commit)) (fuel : Nat) (id : String)
    (h : IsChain E s id (l₁ ++ (x, c) :: l₂)) (hfuel : l₁.length ≤ fuel) :
    amendCollect E s x fuel id = .ok l₁ := by
  have hne := IsChain_ids_ne E s id x c l₁ l₂ h
  induction l₁ generalizing id fuel with
  | nil =>
    have hx : x = id := h.2.1
    subst hx
    exact amendCollect_self E s x fuel
  | cons e0 t ih =>
    obtain ⟨_, hid, hg, hc⟩ := h
    have hidx : id ≠ x := by
      rw [← hid]; exact hne e0 (by simp)
    cases fuel with
    | zero => simp at hfuel
    | succ f =>
      have hrec := ih f e0.2.parent hc (by simpa using hfuel)
        (fun e he => hne e (by simp [he]))
      simp only [amendCollect, hidx, if_false, hg, hrec]
      rw [← hid]

theorem amendRewrite_chain (E : Env) (hinj : E.CollisionFree) (hrt : E.CommitRoundTrip)
    (hne : E.DigestNotEmptyRef) (newid : String) (s : Table) (hwf : StoreWF E s)
    (base : List (String × Objects.Commit)) (hbase : IsChain E s newid base)
    (olds : List (String × Objects.Commit)) :
    ∃ rewritten : List (String × Objects.Commit),
      Table.le s (amendRewrite E newid s olds).2
      ∧ StoreWF E (amendRewrite E newid s olds).2
      ∧ IsChain E (amendRewrite E newid s olds).2 (amendRewrite E newid s olds).1
          (rewritten ++ base)
      ∧ List.Forall₂ SameButParent olds rewritten := by
  induction olds with
  | nil => exact ⟨[], fun _ _ h => h, hwf, hbase, List.Forall₂.nil⟩
  | cons e older ih =>
    obtain ⟨rw', hle, hwf', hch, hfa⟩ := ih
    obtain ⟨i, c⟩ := e
    refine ⟨((Objects.WriteCommit E (amendRewrite E newid s older).2
        { c with parent := (amendRewrite E newid s older).1 }).1,
        { c with parent := (amendRewrite E newid s older).1 }) :: rw', ?_, ?_, ?_, ?_⟩
    · exact Table.le_trans _ _ _ hle (put_le E hinj _ hwf' _)
    · exact put_wf E _ hwf' _
    · refine ⟨hne _, rfl, GetCommit_WriteCommit E hrt _ _, ?_⟩
      exact IsChain_mono E _ _ (put_le E hinj _ hwf' _) _ _ hch
    · exact List.Forall₂.cons ⟨rfl, rfl, rfl, rfl⟩ hfa

theorem amend_eq_of_collect (E : Env) (fuel : Nat) (oldid newid : String) (r : Repo)
    (olds : List (String × Objects.Commit))
    (h : amendCollect E r.objects oldid fuel r.master = .ok olds) :
    amend E fuel oldid newid r
      = (.ok, { r with objects := (amendRewrite E newid r.objects olds).2,
                       master := (amendRewrite E newid r.objects olds).1 }) := by
  simp [amend, h]

/-- C1: let the walk from master read `newer`, then the commit `old` at HEAD, then
`ancestors`, and end at `EMPTY_REF`, in a well-formed object directory with a collision-free
digest.  Then `Commit (msg, true)` succeeds for every fuel that covers `newer`: it writes a new
commit whose parent is the parent of `old`; the walk from the new master reads as many
rewritten commits as there are in `newer`, in the same order, each with the tree, author,
committer and message of the one it replaces, then the new commit, then `ancestors`
unchanged; master is the id at the head of that chain (the new commit itself when `newer` is
empty), and the same fuel of the walk suffices, so the depth is unchanged. -/
theorem Commit_amend_chain (E : Env) (hinj : E.CollisionFree) (hrt : E.CommitRoundTrip)
    (hne : E.DigestNotEmptyRef) (fuel n : Nat) (datetime msg : String) (r : Repo)
    (text : String) (newer ancestors : List (String × Objects.Commit)) (old : Objects.Commit)
    (hwf : StoreWF E r.objects)
    (hchain : Log E r.objects n r.master = some (newer ++ (r.HEAD, old) :: ancestors))
    (hfile : r.COMMIT_MSG = some text)
    (hmsg : (if msg = "" then getCommitMessage text else msg) ≠ "")
    (hname : Config.Get E r.config "user.name" ≠ E.NOT_FOUND)
    (hemail : Config.Get E r.config "user.email" ≠ E.NOT_FOUND)
    (hfuel : newer.length ≤ fuel) :
    ∃ (r' : Repo) (newCommit : Objects.Commit) (rewritten : List (String × Objects.Commit)),
      Commit E fuel datetime msg true r = (.ok, r')
      ∧ newCommit.parent = old.parent
      ∧ Log E r'.objects n r'.master
          = some (rewritten ++ (E.SHA1sum (E.serializeCommit newCommit), newCommit) :: ancestors)
      ∧ List.Forall₂ SameButParent newer rewritten
      ∧ rewritten.length = newer.length
      ∧ ((rewritten ++ [(E.SHA1sum (E.serializeCommit newCommit), newCommit)]).head?.map
          Prod.fst = some r'.master)
      ∧ (newer = [] → r'.master = E.SHA1sum (E.serializeCommit newCommit)) := by
  obtain ⟨hch, hlen⟩ := (Log_eq_some_iff E _ _ _ _).1 hchain
  have hold := IsChain_suffix E _ _ _ _ _ _ hch
  obtain ⟨_, _, hget, hanc⟩ := hold
  simp only at hget hanc
  -- the two writes of `Commit`
  have hle1 := put_le E hinj r.objects hwf (E.serializeIndex r.index)
  have hwf1 := put_wf E r.objects hwf (E.serializeIndex r.index)
  obtain ⟨nc, hnc⟩ : ∃ nc : Objects.Commit, nc = Objects.Commit.mk
      (Objects.WriteIndex E r.objects r.index).1 old.parent
      (E.AuthorString (Config.Get E r.config "user.name")
        (Config.Get E r.config "user.email") datetime)
      (E.AuthorString (Config.Get E r.config "user.name")
        (Config.Get E r.config "user.email") datetime)
      (if msg = "" then getCommitMessage text else msg) := ⟨_, rfl⟩
  have hpar : nc.parent = old.parent := by rw [hnc]
  have hle2 := put_le E hinj _ hwf1 (E.serializeCommit nc)
  have hwf2 := put_wf E _ hwf1 (E.serializeCommit nc)
  have hle := Table.le_trans _ _ _ hle1 hle2
  have hcol := amendCollect_chain E _ r.HEAD old newer ancestors fuel r.master
    (IsChain_mono E _ _ hle _ _ hch) hfuel
  have hbase : IsChain E (Objects.WriteCommit E (Objects.WriteIndex E r.objects r.index).2 nc).2
      (Objects.WriteCommit E (Objects.WriteIndex E r.objects r.index).2 nc).1
      (((Objects.WriteCommit E (Objects.WriteIndex E r.objects r.index).2 nc).1, nc)
        :: ancestors) := by
    refine ⟨hne _, rfl, GetCommit_WriteCommit E hrt _ _, ?_⟩
    simp only [hpar]
    exact IsChain_mono E _ _ hle _ _ hanc
  obtain ⟨rewritten, _, _, hfinal, hfa⟩ := amendRewrite_chain E hinj hrt hne _ _ hwf2 _ hbase newer
  have hrun : Commit E fuel datetime msg true r
      = (.ok, { r with
          objects := (amendRewrite E
            (Objects.WriteCommit E (Objects.WriteIndex E r.objects r.index).2 nc).1
            (Objects.WriteCommit E (Objects.WriteIndex E r.objects r.index).2 nc).2 newer).2,
          master := (amendRewrite E
            (Objects.WriteCommit E (Objects.WriteIndex E r.objects r.index).2 nc).1
            (Objects.WriteCommit E (Objects.WriteIndex E r.objects r.index).2 nc).2 newer).1,
          HEAD := (Objects.WriteCommit E (Objects.WriteIndex E r.objects r.index).2 nc).1 }) := by
    simp only [Commit, hfile, hmsg, hname, hemail, hget, Bool.true_eq_false, and_false,
      if_false, Option.map_some', ← hnc]
    rw [amend_eq_of_collect E fuel r.HEAD _ _ newer hcol]
  have hlenrw : rewritten.length = newer.length := hfa.length_eq.symm
  refine ⟨_, nc, rewritten, hrun, hpar, ?_, hfa, hlenrw, ?_, ?_⟩
  · apply (Log_eq_some_iff E _ _ _ _).2
    refine ⟨hfinal, ?_⟩
    simp only [List.length_append, List.length_cons] at hlen ⊢
    omega
  · cases rewritten with
    | nil => exact congrArg some hfinal.2.1
    | cons e t => exact congrArg some hfinal.2.1
  · intro hn
    subst hn
    rfl

set_option maxRecDepth 100000 in
/-- C1 (witness): the history `c1 ← c2` with HEAD at `c1`; one commit is rewritten. -/
theorem Commit_amend_chain_witness :
    ∃ (r' : Repo) (newCommit : Objects.Commit) (rewritten : List (String × Objects.Commit)),
      Commit Demo.env 1 "d" "m2" true Demo.detached = (.ok, r')
      ∧ newCommit.parent = Demo.c1.parent
      ∧ Log Demo.env r'.objects 2 r'.master
          = some (rewritten ++
              [(Demo.env.SHA1sum (Demo.env.serializeCommit newCommit), newCommit)])
      ∧ List.Forall₂ SameButParent [(Demo.id2, Demo.c2)] rewritten
      ∧ rewritten.length = 1
      ∧ ((rewritten ++ [(Demo.env.SHA1sum (Demo.env.serializeCommit newCommit),
            newCommit)]).head?.map Prod.fst = some r'.master)
      ∧ (([(Demo.id2, Demo.c2)] : List (String × Objects.Commit)) = [] →
          r'.master = Demo.env.SHA1sum (Demo.env.serializeCommit newCommit)) :=
  Commit_amend_chain Demo.env Demo.env_collisionFree Demo.env_commitRoundTrip
    Demo.env_digestNotEmptyRef 1 2 "d" "m2" Demo.detached "" [(Demo.id2, Demo.c2)] []
    Demo.c1 Demo.detached_wf (by decide) rfl (by decide) (by decide) (by decide) (by decide)

/-! ## `Add` -/

/-- C7: adding one regular file `f`.  When `size (f)` exceeds 200 MiB and the thrown
`SitException` is not caught by the `catch (const std::exception &)` clause of `addFile`,
`Add` ends with the fatal error and nothing but the warning line differs: index, saved index
and objects are as before.  When the size is at most 200 MiB and the bytes can be read, `Add`
succeeds, the index entry of the repository-relative path of `f` is the digest of the bytes,
the index is saved, the blob is stored, no other entry changes, and the warning is written
exactly when the size exceeds 100 MiB. -/
theorem Add_size_guard (E : Env) (file : FileEntry) (r : Repo) (size : Nat)
    (hreg : file.IsDirectory = false) (hsize : file.file_size = some size) :
    (200 * 2 ^ 20 < size → E.SitExceptionIsStd = false →
      Add E [file] r
        = (.fatal "Fatal: Try to add a file larger than 200MB" file.path,
           { r with err := r.err ++ "Warning : Try to add a file larger than 100MB\n" }))
    ∧ (size ≤ 200 * 2 ^ 20 → ∀ bytes, file.content = some bytes →
        (Add E [file] r).1 = .ok
        ∧ (Add E [file] r).2.index.find (E.GetRelativePath file.path) = some (E.SHA1sum bytes)
        ∧ (Add E [file] r).2.indexFile = (Add E [file] r).2.index
        ∧ (Add E [file] r).2.objects.find (E.SHA1sum bytes) = some bytes
        ∧ (∀ p, p ≠ E.GetRelativePath file.path →
            (Add E [file] r).2.index.find p = r.index.find p)
        ∧ (100 * 2 ^ 20 < size →
            (Add E [file] r).2.err = r.err ++ "Warning : Try to add a file larger than 100MB\n")
        ∧ (size ≤ 100 * 2 ^ 20 → (Add E [file] r).2.err = r.err)) := by
  constructor
  · intro hbig hstd
    have h200 : 209715200 < size := by omega
    have h100 : 104857600 < size := by omega
    simp [Add, AddLoop, addFile, hreg, hsize, h200, h100, hstd]
  · intro hsmall bytes hbytes
    have h200 : ¬ 209715200 < size := by omega
    by_cases h100 : 104857600 < size
    · simp [Add, AddLoop, addFile, hreg, hsize, h200, h100, hbytes, Table.find_upsert]
      intro p hp hq
      exact absurd hq.symm hp
    · simp [Add, AddLoop, addFile, hreg, hsize, h200, h100, hbytes, Table.find_upsert]
      intro p hp hq
      exact absurd hq.symm hp

/-- C7 (witness): a file of 250 MiB is refused and the index keeps its entry. -/
theorem Add_size_guard_witness :
    Add Demo.env [Demo.bigFile] Demo.staged
      = (.fatal "Fatal: Try to add a file larger than 200MB" Demo.bigFile.path,
         { Demo.staged with
           err := Demo.staged.err ++ "Warning : Try to add a file larger than 100MB\n" }) :=
  (Add_size_guard Demo.env Demo.bigFile Demo.staged (250 * 2 ^ 20) rfl rfl).1
    (by decide) rfl

/-- C8 (the code at the failing input): a directory, a file whose reading throws and a
readable file are added to an index that maps `a.txt` to `hold`.  The call succeeds, the
readable file is staged under its digest, the directory gets no entry, and the entry of the
unreadable file is overwritten with the empty string that `addFile` returned. -/
theorem Add_failed_file_gets_entry :
    (Add Demo.env [Demo.dir, Demo.unreadable, Demo.small] Demo.staged).1 = .ok
    ∧ (Add Demo.env [Demo.dir, Demo.unreadable, Demo.small] Demo.staged).2.index
        = [("a.txt", ""), ("b.txt", "hbb")]
    ∧ (Add Demo.env [Demo.dir, Demo.unreadable, Demo.small] Demo.staged).2.indexFile
        = [("a.txt", ""), ("b.txt", "hbb")] := by
  decide

/-! ## `Reset`: the index -/

theorem mem_setInsert (x y : String) (l : List String) :
    y ∈ setInsert x l ↔ y = x ∨ y ∈ l := by
  induction l with
  | nil => simp [setInsert]
  | cons a t ih =>
    unfold setInsert
    by_cases h1 : x = a
    · subst h1
      simp
    · by_cases h2 : strLt x a = true
      · simp [h1, h2]
      · simp [h1, h2, ih]
        tauto

theorem mem_foldl_setInsert (l : Table) (init : List String) (y : String) :
    y ∈ l.foldl (fun s e => setInsert e.1 s) init ↔ y ∈ init ∨ ∃ e ∈ l, e.1 = y := by
  induction l generalizing init with
  | nil => simp
  | cons a t ih =>
    simp only [List.foldl_cons, ih, mem_setInsert, List.mem_cons, exists_eq_or_imp]
    constructor
    · rintro ((h | h) | h)
      · exact Or.inr (Or.inl h.symm)
      · exact Or.inl h
      · exact Or.inr (Or.inr h)
    · rintro (h | h | h)
      · exact Or.inl (Or.inr h)
      · exact Or.inl (Or.inl h.symm)
      · exact Or.inr h

theorem Table.find_eq_none_iff (m : Table) (k : String) :
    m.find k = none ↔ ∀ e ∈ m, e.1 ≠ k := by
  induction m with
  | nil => simp [Table.find]
  | cons e t ih =>
    obtain ⟨a, b⟩ := e
    by_cases h : a = k
    · simp [Table.find, h]
    · simp [Table.find, h, ih]

theorem mem_ListFile (E : Env) (idx : Table) (fn : String) (e : String × String) :
    e ∈ ListFile E idx fn ↔ e ∈ idx ∧ E.underPath fn e.1 = true := by
  simp [ListFile, List.mem_filter]

theorem copyObject_some (id dst : String) (r r1 : Repo) (h : copyObject id dst r = some r1) :
    ∃ bytes, r.objects.find id = some bytes ∧ r1 = { r with work := r.work.upsert dst bytes } := by
  unfold copyObject at h
  cases hf : r.objects.find id with
  | none => simp [hf] at h
  | some bytes =>
    simp [hf] at h
    exact ⟨bytes, rfl, h.symm⟩

theorem checkoutList_frame (l : Table) (r : Repo) :
    (checkoutList l r).2.index = r.index ∧ (checkoutList l r).2.objects = r.objects
      ∧ (checkoutList l r).2.indexFile = r.indexFile := by
  induction l generalizing r with
  | nil => simp [checkoutList]
  | cons e t ih =>
    unfold checkoutList
    cases hc : copyObject e.2 e.1 r with
    | none => simp
    | some r1 =>
      obtain ⟨bytes, _, rfl⟩ := copyObject_some _ _ _ _ hc
      simpa using ih _

/-- A path-scoped `Checkout` leaves the index and the object directory alone. -/
theorem Checkout_file_frame (E : Env) (commitid filename : String) (r : Repo)
    (hfn : filename ≠ "") (hrel : E.GetRelativePath filename ≠ "") :
    (Checkout E commitid filename r).2.index = r.index
      ∧ (Checkout E commitid filename r).2.objects = r.objects
      ∧ (Checkout E commitid filename r).2.indexFile = r.indexFile := by
  unfold Checkout
  simp only [hfn, ne_eq, not_false_eq_true, if_true, hrel, if_false]
  split
  · simp
  · split
    · simp
    · split
      · split
        · simp
        · split
          · simp
          · rename_i r1 hc
            obtain ⟨bytes, _, rfl⟩ := copyObject_some _ _ _ _ hc
            simp
      · split
        · exact checkoutList_frame _ _
        · simp

/-- What a successful `resetSingleFile` has done. -/
theorem resetSingleFile_ok (E : Env) (id a : String) (cidx : Table) (inC inI isHard : Bool)
    (r r1 : Repo) (h : resetSingleFile E id a cidx inC inI isHard r = (.ok, r1)) :
    (inC = true ∧ ∃ cid outs idx', cidx.find a = some cid
        ∧ idx' = (if inI = true then (r.index.erase a).upsert a cid else r.index.upsert a cid)
        ∧ ((isHard = false ∧ r1 = { r with out := outs, index := idx', indexFile := idx' })
          ∨ (isHard = true ∧ ∃ r2, Checkout E id a { r with out := outs, index := idx' }
                = (.ok, r2) ∧ r1 = { r2 with indexFile := r2.index })))
    ∨ (inC = false ∧ inI = true ∧ ∃ outs,
        r1 = { r with out := outs, index := r.index.erase a, indexFile := r.index.erase a,
                      work := if isHard = true then r.work.erase a else r.work })
    ∨ (inC = false ∧ inI = false ∧ ∃ outs errs, r1 = { r with out := outs, err := errs }) := by
  unfold resetSingleFile at h
  cases inC <;> cases inI
  · right; right
    simp at h
    exact ⟨rfl, rfl, _, _, h.symm⟩
  · right; left
    cases isHard
    · simp at h
      exact ⟨rfl, rfl, _, h.symm⟩
    · simp at h
      exact ⟨rfl, rfl, _, h.symm⟩
  · left
    simp only [and_self, if_true, Bool.false_eq_true, if_false] at h
    cases hc : cidx.find a with
    | none => simp [hc] at h
    | some cid =>
      simp only [hc] at h
      refine ⟨rfl, cid, r.out ++ "  " ++ pathText a ++ " >>> index\n", _, rfl, rfl, ?_⟩
      cases isHard
      · left
        simp at h
        exact ⟨rfl, h.symm⟩
      · right
        simp only [if_true] at h
        split at h
        · rename_i r2 hck
          simp at h
          exact ⟨rfl, r2, hck, h.symm⟩
        · rename_i e r2 hne hck
          simp at h
          exact absurd h.1 (hne ·)
  · left
    simp only [Bool.true_eq_false, and_false, if_false, and_self, if_true, false_and] at h
    cases hc : cidx.find a with
    | none => simp [hc] at h
    | some cid =>
      simp only [hc] at h
      refine ⟨rfl, cid, r.out ++ "  " ++ pathText a ++ " = " ++ cid ++ "\n", _, rfl, rfl, ?_⟩
      cases isHard
      · left
        simp at h
        exact ⟨rfl, h.symm⟩
      · right
        simp only [if_true] at h
        split at h
        · rename_i r2 hck
          simp at h
          exact ⟨rfl, r2, hck, h.symm⟩
        · rename_i e r2 hne hck
          simp at h
          exact absurd h.1 (hne ·)

/-- What a successful pass of the loop of `Reset` over one more path has done: either the
path was found consistent and skipped, or `resetSingleFile` ran. -/
theorem resetLoop_cons_ok (E : Env) (id : String) (cidx : Table) (cS iS : List String)
    (isHard : Bool) (a : String) (rest : List String) (r r' : Repo)
    (h : resetLoop E id cidx cS iS isHard (a :: rest) r = (.ok, r')) :
    (∃ bytes iid, a ∈ cS ∧ a ∈ iS ∧ FileSystem.Read E r.work a = some bytes
        ∧ r.index.find a = some iid ∧ E.SHA1sum bytes = iid ∧ cidx.find a = some iid
        ∧ resetLoop E id cidx cS iS isHard rest r = (.ok, r'))
    ∨ (∃ r1, resetSingleFile E id a cidx (decide (a ∈ cS)) (decide (a ∈ iS)) isHard r
          = (.ok, r1)
        ∧ resetLoop E id cidx cS iS isHard rest r1 = (.ok, r')) := by
  have hnext : ∀ x : Outcome × Repo,
      (match resetSingleFile E id a cidx (decide (a ∈ cS)) (decide (a ∈ iS)) isHard r with
        | (.ok, r1) => resetLoop E id cidx cS iS isHard rest r1
        | (e, r1) => (e, r1)) = x → x = (.ok, r') →
      ∃ r1, resetSingleFile E id a cidx (decide (a ∈ cS)) (decide (a ∈ iS)) isHard r
          = (.ok, r1)
        ∧ resetLoop E id cidx cS iS isHard rest r1 = (.ok, r') := by
    intro x hx hxe
    subst hxe
    split at hx
    · rename_i r1 hs
      exact ⟨r1, hs, hx⟩
    · rename_i e r1 hne hs
      simp at hx
      exact absurd hx.1 (hne ·)
  unfold resetLoop at h
  simp only at h
  split at h
  · rename_i hboth
    simp only [decide_eq_true_eq] at hboth
    split at h
    · simp at h
    · rename_i bytes hread
      split at h
      · simp at h
      · rename_i iid hfind
        split at h
        · rename_i hsha
          split at h
          · simp at h
          · rename_i cid hcid
            split at h
            · rename_i hci
              subst hci
              exact Or.inl ⟨bytes, _, hboth.1, hboth.2, hread, hfind, hsha, hcid, h⟩
            · exact Or.inr (hnext _ rfl h)
        · exact Or.inr (hnext _ rfl h)
  · exact Or.inr (hnext _ rfl h)

theorem resetSingleFile_index (E : Env) (id a : String) (cidx : Table)
    (inC inI isHard : Bool) (r r1 : Repo)
    (h : resetSingleFile E id a cidx inC inI isHard r = (.ok, r1))
    (hpath : isHard = true → inC = true → a ≠ "" ∧ E.GetRelativePath a ≠ "") :
    r1.objects = r.objects
    ∧ (∀ p, p ≠ a → r1.index.find p = r.index.find p)
    ∧ (inC = true → r1.index.find a = cidx.find a)
    ∧ (inC = false → inI = true → r1.index.find a = none) := by
  rcases resetSingleFile_ok E id a cidx inC inI isHard r r1 h with
    ⟨hC, cid, outs, idx', hcid, hidx, hcase⟩ | ⟨hC, hI, outs, hr1⟩ | ⟨hC, hI, outs, errs, hr1⟩
  · have hfind : ∀ p, idx'.find p = if a = p then some cid else r.index.find p := by
      intro p
      rw [hidx]
      by_cases hi : inI = true
      · simp only [hi, if_true, Table.find_upsert, Table.find_erase]
        by_cases hp : a = p <;> simp [hp]
      · have hi' : inI = false := by simpa using hi
        simp only [hi', Bool.false_eq_true, if_false, Table.find_upsert]
    have key : r1.objects = r.objects ∧ r1.index = idx' := by
      rcases hcase with ⟨_, hr1⟩ | ⟨hh, r2, hck, hr1⟩
      · subst hr1; exact ⟨rfl, rfl⟩
      · obtain ⟨hne, hrel⟩ := hpath hh hC
        have := Checkout_file_frame E id a { r with out := outs, index := idx' } hne hrel
        rw [hck] at this
        subst hr1
        exact ⟨this.2.1, this.1⟩
    refine ⟨key.1, ?_, ?_, ?_⟩
    · intro p hp
      have hap : ¬ a = p := fun e => hp e.symm
      rw [key.2, hfind]
      simp [hap]
    · intro _
      rw [key.2, hfind, hcid]
      simp
    · intro hf
      rw [hC] at hf
      cases hf
  · subst hr1
    refine ⟨rfl, ?_, ?_, ?_⟩
    · intro p hp
      have hap : ¬ a = p := fun e => hp e.symm
      simp [Table.find_erase, hap]
    · intro ht
      rw [hC] at ht
      cases ht
    · intro _ _
      simp [Table.find_erase]
  · subst hr1
    refine ⟨rfl, fun p _ => rfl, ?_, ?_⟩
    · intro ht
      rw [hC] at ht
      cases ht
    · intro _ ht
      rw [hI] at ht
      cases ht

theorem resetLoop_index (E : Env) (id : String) (cidx : Table) (cS iS : List String)
    (isHard : Bool) (L : List String) (r r' : Repo)
    (h : resetLoop E id cidx cS iS isHard L r = (.ok, r'))
    (hL : ∀ a ∈ L, a ∈ cS ∨ a ∈ iS)
    (hI : ∀ a ∈ iS, a ∉ cS → cidx.find a = none)
    (hpath : isHard = true → ∀ a ∈ cS, a ≠ "" ∧ E.GetRelativePath a ≠ "") :
    r'.objects = r.objects
    ∧ ∀ p, (p ∈ L → r'.index.find p = cidx.find p)
        ∧ (p ∉ L → r'.index.find p = r.index.find p) := by
  induction L generalizing r with
  | nil =>
    simp only [resetLoop, Prod.mk.injEq, true_and] at h
    subst h
    simp
  | cons a rest ih =>
    have hLrest : ∀ b ∈ rest, b ∈ cS ∨ b ∈ iS := fun b hb => hL b (by simp [hb])
    rcases resetLoop_cons_ok E id cidx cS iS isHard a rest r r' h with
      ⟨bytes, iid, haC, haI, hread, hfind, hsha, hcid, hrest⟩ | ⟨r1, hstep, hrest⟩
    · obtain ⟨hobj, hp⟩ := ih r hrest hLrest
      refine ⟨hobj, fun p => ⟨?_, ?_⟩⟩
      · intro hmem
        by_cases hpr : p ∈ rest
        · exact (hp p).1 hpr
        · have hpa : p = a := by
            rcases List.mem_cons.1 hmem with h1 | h1
            · exact h1
            · exact absurd h1 hpr
          subst hpa
          rw [(hp p).2 hpr, hfind, hcid]
      · intro hmem
        exact (hp p).2 (fun hc => hmem (by simp [hc]))
    · obtain ⟨hobj, hp⟩ := ih r1 hrest hLrest
      have hstep' := resetSingleFile_index E id a cidx _ _ isHard r r1 hstep
        (fun hh hc => hpath hh a (by simpa using hc))
      obtain ⟨hobj1, hother, hinC, hnotC⟩ := hstep'
      refine ⟨hobj.trans hobj1, fun p => ⟨?_, ?_⟩⟩
      · intro hmem
        by_cases hpr : p ∈ rest
        · exact (hp p).1 hpr
        · have hpa : p = a := by
            rcases List.mem_cons.1 hmem with h1 | h1
            · exact h1
            · exact absurd h1 hpr
          subst hpa
          rw [(hp p).2 hpr]
          by_cases hc : p ∈ cS
          · exact hinC (by simpa using hc)
          · have hi : p ∈ iS := by
              rcases hL p (by simp) with h1 | h1
              · exact absurd h1 hc
              · exact h1
            rw [hnotC (by simpa using hc) (by simpa using hi), hI p hi hc]
      · intro hmem
        have hpa : p ≠ a := fun e => hmem (by simp [e])
        have hpr : p ∉ rest := fun hc => hmem (by simp [hc])
        rw [(hp p).2 hpr, hother p hpa]

/-- C9: let `cidx` be the snapshot of the resolved target commit and let `Reset` return
normally.  Then for every path in the scope of the path argument the index agrees with the
target (its entry is the blob id of the target, or it has no entry when the target has
none), and every entry outside the scope is as before.  For a hard reset the paths of the
snapshot are taken to be paths of files relative to the repository root. -/
theorem Reset_index (E : Env) (id filename : String) (isHard : Bool) (r r' : Repo)
    (cidx : Table)
    (hci : CommitIndex E r.objects (E.SHA1Complete r.objects
      (if id = "master" then r.master else if id = "HEAD" ∨ id = "" then r.HEAD else id))
        = some cidx)
    (hpaths : isHard = true → FilePaths E cidx)
    (h : Reset E id filename isHard r = (.ok, r')) :
    ∀ p,
      (E.underPath (if filename ≠ "" then E.GetRelativePath filename else filename) p = true →
        r'.index.find p = cidx.find p)
      ∧ (E.underPath (if filename ≠ "" then E.GetRelativePath filename else filename) p = false →
        r'.index.find p = r.index.find p) := by
  unfold Reset at h
  simp only [hci] at h
  generalize hscope : (if filename ≠ "" then E.GetRelativePath filename else filename) = scope
    at h ⊢
  have hmemC : ∀ a, a ∈ (ListFile E cidx scope).foldl (fun s e => setInsert e.1 s) [] ↔
      cidx.find a ≠ none ∧ E.underPath scope a = true := by
    intro a
    rw [mem_foldl_setInsert]
    simp only [List.not_mem_nil, false_or, mem_ListFile, ne_eq, Table.find_eq_none_iff]
    constructor
    · rintro ⟨e, ⟨he, hu⟩, rfl⟩
      exact ⟨fun hall => hall e he rfl, hu⟩
    · rintro ⟨hex, hu⟩
      simp only [not_forall, not_not] at hex
      obtain ⟨e, he, hea⟩ := hex
      exact ⟨e, ⟨he, by rw [hea]; exact hu⟩, hea⟩
  have hmemI : ∀ a, a ∈ (ListFile E r.index scope).foldl (fun s e => setInsert e.1 s) [] ↔
      r.index.find a ≠ none ∧ E.underPath scope a = true := by
    intro a
    rw [mem_foldl_setInsert]
    simp only [List.not_mem_nil, false_or, mem_ListFile, ne_eq, Table.find_eq_none_iff]
    constructor
    · rintro ⟨e, ⟨he, hu⟩, rfl⟩
      exact ⟨fun hall => hall e he rfl, hu⟩
    · rintro ⟨hex, hu⟩
      simp only [not_forall, not_not] at hex
      obtain ⟨e, he, hea⟩ := hex
      exact ⟨e, ⟨he, by rw [hea]; exact hu⟩, hea⟩
  have hmemA : ∀ a, a ∈ (ListFile E r.index scope).foldl (fun s e => setInsert e.1 s)
        ((ListFile E cidx scope).foldl (fun s e => setInsert e.1 s) []) ↔
      (cidx.find a ≠ none ∨ r.index.find a ≠ none) ∧ E.underPath scope a = true := by
    intro a
    rw [mem_foldl_setInsert, hmemC]
    have := hmemI a
    rw [mem_foldl_setInsert] at this
    simp only [List.not_mem_nil, false_or] at this
    rw [this]
    tauto
  have hloop := resetLoop_index E _ cidx _ _ isHard _ r r' h
    (fun a ha => by
      rw [hmemA] at ha
      rw [hmemC, hmemI]
      tauto)
    (fun a ha hna => by
      rw [hmemI] at ha
      rw [hmemC] at hna
      by_contra hc
      exact hna ⟨hc, ha.2⟩)
    (fun hh a ha => by
      rw [hmemC] at ha
      have := hpaths hh a ha.1
      exact ⟨this.1, by rw [this.2.2]; exact this.1⟩)
  intro p
  constructor
  · intro hu
    by_cases hmem : p ∈ (ListFile E r.index scope).foldl (fun s e => setInsert e.1 s)
        ((ListFile E cidx scope).foldl (fun s e => setInsert e.1 s) [])
    · exact (hloop.2 p).1 hmem
    · rw [(hloop.2 p).2 hmem]
      rw [hmemA] at hmem
      have h1 : cidx.find p = none := by
        by_contra hc
        exact hmem ⟨Or.inl hc, hu⟩
      have h2 : r.index.find p = none := by
        by_contra hc
        exact hmem ⟨Or.inr hc, hu⟩
      rw [h1, h2]
  · intro hu
    apply (hloop.2 p).2
    rw [hmemA]
    intro hc
    rw [hc.2] at hu
    cases hu

/-! ## `Reset`: the working tree -/

theorem Read_congr (E : Env) (w w' : Table) (p : String) (h : w.find p = w'.find p) :
    FileSystem.Read E w p = FileSystem.Read E w' p := by
  simp [FileSystem.Read, h]

theorem resetSingleFile_soft_work (E : Env) (id a : String) (cidx : Table) (inC inI : Bool)
    (r : Repo) : (resetSingleFile E id a cidx inC inI false r).2.work = r.work := by
  unfold resetSingleFile
  cases inC <;> cases inI <;> simp
  · cases cidx.find a <;> simp
  · cases cidx.find a <;> simp

theorem resetLoop_soft_work (E : Env) (id : String) (cidx : Table) (cS iS : List String)
    (L : List String) (r : Repo) :
    (resetLoop E id cidx cS iS false L r).2.work = r.work := by
  induction L generalizing r with
  | nil => simp [resetLoop]
  | cons a rest ih =>
    have hnext : (match resetSingleFile E id a cidx (decide (a ∈ cS)) (decide (a ∈ iS)) false r
        with
        | (.ok, r1) => resetLoop E id cidx cS iS false rest r1
        | (e, r1) => (e, r1)).2.work = r.work := by
      have hs := resetSingleFile_soft_work E id a cidx (decide (a ∈ cS)) (decide (a ∈ iS)) r
      split
      · rename_i r1 heq
        rw [heq] at hs
        rw [ih]
        exact hs
      · rename_i e r1 _ heq
        rw [heq] at hs
        exact hs
    unfold resetLoop
    simp only
    split
    · split
      · rfl
      · split
        · rfl
        · split
          · split
            · rfl
            · split
              · exact ih r
              · exact hnext
          · exact hnext
    · exact hnext

theorem Reset_soft_work (E : Env) (id filename : String) (r : Repo) :
    (Reset E id filename false r).2.work = r.work := by
  unfold Reset
  simp only
  split
  · rfl
  · exact resetLoop_soft_work _ _ _ _ _ _ _

theorem CommitIndex_exists (E : Env) (objects : Table) (rid : String) (cidx : Table)
    (h : CommitIndex E objects rid = some cidx) : Objects.IsExist objects rid = true := by
  unfold CommitIndex Objects.GetCommit at h
  unfold Objects.IsExist Table.has
  cases hf : objects.find rid with
  | none => simp [hf] at h
  | some b => simp

/-- The call `Checkout (id, p)` made by a hard reset for a path of the target snapshot
copies the blob of that path and does nothing else. -/
theorem Checkout_single (E : Env) (rid p cid : String) (r r2 : Repo) (cidx : Table)
    (hcomplete : E.SHA1Complete r.objects rid = rid)
    (hci : CommitIndex E r.objects rid = some cidx)
    (hidx : r.index.find p = some cid) (hcid : cidx.find p = some cid)
    (hp : p ≠ "") (hslash : p.data.getLast? ≠ some '/') (hrel : E.GetRelativePath p = p)
    (h : Checkout E rid p r = (.ok, r2)) :
    ∃ bytes, r.objects.find cid = some bytes ∧ r2 = { r with work := r.work.upsert p bytes } := by
  have hex := CommitIndex_exists E _ _ _ hci
  unfold Checkout at h
  simp only [hcomplete, hex, Bool.true_eq_false, and_false, if_false, hp, ne_eq,
    not_false_eq_true, if_true, hrel, hci] at h
  by_cases hrid : rid = ""
  · simp only [hrid, if_true] at h
    have hhas : r.index.has p = true := by simp [Table.has, hidx]
    simp only [hslash, not_false_eq_true, hhas, and_self, if_true, hidx] at h
    cases hc : copyObject cid p r with
    | none => simp [hc] at h
    | some r1 =>
      simp only [hc, Prod.mk.injEq, true_and] at h
      subst h
      exact copyObject_some _ _ _ _ hc
  · simp only [hrid, if_false] at h
    have hhas : cidx.has p = true := by simp [Table.has, hcid]
    simp only [hslash, not_false_eq_true, hhas, and_self, if_true, hcid] at h
    cases hc : copyObject cid p r with
    | none => simp [hc] at h
    | some r1 =>
      simp only [hc, Prod.mk.injEq, true_and] at h
      subst h
      exact copyObject_some _ _ _ _ hc

theorem Read_of_find (E : Env) (w : Table) (p bytes : String) (h : w.find p = some bytes) :
    FileSystem.Read E w p = some bytes := by
  simp [FileSystem.Read, h]

theorem resetSingleFile_hard_work (E : Env) (id a : String) (cidx : Table) (inC inI : Bool)
    (r r1 : Repo) (h : resetSingleFile E id a cidx inC inI true r = (.ok, r1))
    (hcomplete : E.SHA1Complete r.objects id = id)
    (hci : CommitIndex E r.objects id = some cidx) (hkeys : FilePaths E cidx) :
    r1.objects = r.objects
    ∧ (∀ p, p ≠ a → r1.work.find p = r.work.find p)
    ∧ (inC = true → ∀ cid bytes, cidx.find a = some cid → r.objects.find cid = some bytes →
        r1.work.find a = some bytes)
    ∧ (inC = false → inI = true → r1.work.find a = none) := by
  rcases resetSingleFile_ok E id a cidx inC inI true r r1 h with
    ⟨hC, cid, outs, idx', hcid, hidx, hcase⟩ | ⟨hC, hI, outs, hr1⟩ | ⟨hC, hI, outs, errs, hr1⟩
  · rcases hcase with ⟨hh, _⟩ | ⟨_, r2, hck, hr1⟩
    · cases hh
    · have hfind : idx'.find a = some cid := by
        rw [hidx]
        by_cases hi : inI = true
        · simp [hi, Table.find_upsert]
        · have hi' : inI = false := by simpa using hi
          simp [hi', Table.find_upsert]
      obtain ⟨hne, hslash, hrel⟩ := hkeys a (by rw [hcid]; simp)
      obtain ⟨bytes', hblob, hr2⟩ := Checkout_single E id a cid
        { r with out := outs, index := idx' } r2 cidx hcomplete hci hfind hcid hne hslash hrel hck
      subst hr2
      subst hr1
      refine ⟨rfl, ?_, ?_, ?_⟩
      · intro p hp
        have hap : ¬ a = p := fun e => hp e.symm
        simp [Table.find_upsert, hap]
      · intro _ cid0 bytes h1 h2
        rw [hcid] at h1
        cases h1
        simp only at hblob
        rw [hblob] at h2
        cases h2
        simp [Table.find_upsert]
      · intro hf
        rw [hC] at hf
        cases hf
  · subst hr1
    refine ⟨rfl, ?_, ?_, ?_⟩
    · intro p hp
      have hap : ¬ a = p := fun e => hp e.symm
      simp [Table.find_erase, hap]
    · intro ht
      rw [hC] at ht
      cases ht
    · intro _ _
      simp [Table.find_erase]
  · subst hr1
    refine ⟨rfl, fun p _ => rfl, ?_, ?_⟩
    · intro ht
      rw [hC] at ht
      cases ht
    · intro _ ht
      rw [hI] at ht
      cases ht

theorem resetLoop_hard_work (E : Env) (hinj : E.CollisionFree) (id : String) (cidx : Table)
    (cS iS : List String) (objs : Table) (hwf : StoreWF E objs)
    (hcomplete : E.SHA1Complete objs id = id)
    (hci : CommitIndex E objs id = some cidx) (hkeys : FilePaths E cidx)
    (L : List String) (r r' : Repo) (hobjs : r.objects = objs)
    (h : resetLoop E id cidx cS iS true L r = (.ok, r'))
    (hL : ∀ a ∈ L, a ∈ cS ∨ a ∈ iS) :
    r'.objects = objs
    ∧ ∀ p,
      (p ∈ L →
        (p ∈ cS → ∀ cid bytes, cidx.find p = some cid → objs.find cid = some bytes →
          FileSystem.Read E r'.work p = some bytes)
        ∧ (p ∉ cS → r'.work.find p = none))
      ∧ (p ∉ L → r'.work.find p = r.work.find p) := by
  induction L generalizing r with
  | nil =>
    simp only [resetLoop, Prod.mk.injEq, true_and] at h
    subst h
    simp [hobjs]
  | cons a rest ih =>
    have hLrest : ∀ b ∈ rest, b ∈ cS ∨ b ∈ iS := fun b hb => hL b (by simp [hb])
    rcases resetLoop_cons_ok E id cidx cS iS true a rest r r' h with
      ⟨bytes0, iid, haC, haI, hread, hfind, hsha, hcid, hrest⟩ | ⟨r1, hstep, hrest⟩
    · obtain ⟨hobj, hp⟩ := ih r hobjs hrest hLrest
      refine ⟨hobj, fun p => ⟨?_, ?_⟩⟩
      · intro hmem
        by_cases hpr : p ∈ rest
        · exact (hp p).1 hpr
        · have hpa : p = a := by
            rcases List.mem_cons.1 hmem with h1 | h1
            · exact h1
            · exact absurd h1 hpr
          subst hpa
          refine ⟨?_, fun hc => absurd haC hc⟩
          intro _ cid bytes h1 h2
          rw [hcid] at h1
          cases h1
          have h3 := hwf _ _ h2
          rw [← hsha] at h3
          have h4 := hinj _ _ h3
          rw [Read_congr E _ _ p ((hp p).2 hpr), hread, h4]
      · intro hmem
        exact (hp p).2 (fun hc => hmem (by simp [hc]))
    · subst hobjs
      obtain ⟨hobj1, hother, hinC, hnotC⟩ := resetSingleFile_hard_work E id a cidx _ _ r r1
        hstep hcomplete hci hkeys
      obtain ⟨hobj, hp⟩ := ih r1 hobj1 hrest hLrest
      refine ⟨hobj, fun p => ⟨?_, ?_⟩⟩
      · intro hmem
        by_cases hpr : p ∈ rest
        · exact (hp p).1 hpr
        · have hpa : p = a := by
            rcases List.mem_cons.1 hmem with h1 | h1
            · exact h1
            · exact absurd h1 hpr
          subst hpa
          constructor
          · intro hc cid bytes h1 h2
            apply Read_of_find
            rw [(hp p).2 hpr]
            exact hinC (by simpa using hc) cid bytes h1 h2
          · intro hc
            have hi : p ∈ iS := by
              rcases hL p (by simp) with h1 | h1
              · exact absurd h1 hc
              · exact h1
            rw [(hp p).2 hpr]
            exact hnotC (by simpa using hc) (by simpa using hi)
      · intro hmem
        have hpa : p ≠ a := fun e => hmem (by simp [e])
        have hpr : p ∉ rest := fun hc => hmem (by simp [hc])
        rw [(hp p).2 hpr, hother p hpa]

theorem mem_pathSet (E : Env) (t : Table) (scope : String) (init : List String) (a : String) :
    a ∈ (ListFile E t scope).foldl (fun s e => setInsert e.1 s) init ↔
      a ∈ init ∨ (t.find a ≠ none ∧ E.underPath scope a = true) := by
  rw [mem_foldl_setInsert]
  simp only [mem_ListFile, ne_eq, Table.find_eq_none_iff]
  constructor
  · rintro (h | ⟨e, ⟨he, hu⟩, rfl⟩)
    · exact Or.inl h
    · exact Or.inr ⟨fun hall => hall e he rfl, hu⟩
  · rintro (h | ⟨hex, hu⟩)
    · exact Or.inl h
    · simp only [not_forall, not_not] at hex
      obtain ⟨e, he, hea⟩ := hex
      exact Or.inr ⟨e, ⟨he, by rw [hea]; exact hu⟩, hea⟩

/-- `Reset` and the working tree.  A soft `Reset` leaves every working-tree file as it was,
whatever its outcome.  For a hard `Reset` the statement is about a run from the repository
root only: `FilePaths` says that `GetRelativePath` leaves the paths of the snapshot as they
are, and a bare path names the file at that path under the root.  After a hard `Reset` that
returns normally, with a collision-free digest, a well-formed object directory and a resolved
id that `SHA1Complete` leaves as it is: every path in scope that the target maps to a blob
present in the object directory reads back as the bytes of that blob, and is a file of the
working tree with those bytes when `FileSystem::Read` throws on a missing file; every path in
scope that the index had and the target has not is absent from the working tree. -/
theorem Reset_work (E : Env) (id filename : String) (r : Repo) :
    (Reset E id filename false r).2.work = r.work
    ∧ ∀ (r' : Repo) (cidx : Table),
        E.CollisionFree → StoreWF E r.objects →
        E.SHA1Complete r.objects (E.SHA1Complete r.objects
            (if id = "master" then r.master else if id = "HEAD" ∨ id = "" then r.HEAD else id))
          = E.SHA1Complete r.objects
            (if id = "master" then r.master else if id = "HEAD" ∨ id = "" then r.HEAD else id) →
        CommitIndex E r.objects (E.SHA1Complete r.objects
            (if id = "master" then r.master else if id = "HEAD" ∨ id = "" then r.HEAD else id))
          = some cidx →
        FilePaths E cidx →
        Reset E id filename true r = (.ok, r') →
        ∀ p, E.underPath (if filename ≠ "" then E.GetRelativePath filename else filename) p
            = true →
          (∀ cid bytes, cidx.find p = some cid → r.objects.find cid = some bytes →
            FileSystem.Read E r'.work p = some bytes
            ∧ (E.ReadAbsent = none → r'.work.find p = some bytes))
          ∧ (cidx.find p = none → r.index.find p ≠ none → r'.work.find p = none) := by
  refine ⟨Reset_soft_work E id filename r, ?_⟩
  intro r' cidx hinj hwf hcomplete hci hkeys h p hu
  unfold Reset at h
  simp only [hci] at h
  generalize hscope : (if filename ≠ "" then E.GetRelativePath filename else filename) = scope
    at h hu
  have hloop := resetLoop_hard_work E hinj _ cidx _ _ r.objects hwf hcomplete hci hkeys _ r r'
    rfl h
    (fun a ha => by
      rw [mem_pathSet, mem_pathSet] at ha
      rw [mem_pathSet, mem_pathSet]
      simp only [List.not_mem_nil, false_or] at ha ⊢
      tauto)
  have hC : p ∈ (ListFile E cidx scope).foldl (fun s e => setInsert e.1 s) [] ↔
      cidx.find p ≠ none := by
    rw [mem_pathSet]
    simp [hu]
  constructor
  · intro cid bytes h1 h2
    have hpC : p ∈ (ListFile E cidx scope).foldl (fun s e => setInsert e.1 s) [] := by
      rw [hC, h1]; simp
    have hpL : p ∈ (ListFile E r.index scope).foldl (fun s e => setInsert e.1 s)
        ((ListFile E cidx scope).foldl (fun s e => setInsert e.1 s) []) := by
      rw [mem_pathSet]; exact Or.inl hpC
    have hread := ((hloop.2 p).1 hpL).1 hpC cid bytes h1 h2
    refine ⟨hread, fun habs => ?_⟩
    unfold FileSystem.Read at hread
    cases hf : r'.work.find p with
    | none => rw [hf, habs] at hread; cases hread
    | some b => rw [hf] at hread; exact hread
  · intro h1 h2
    have hpC : p ∉ (ListFile E cidx scope).foldl (fun s e => setInsert e.1 s) [] := by
      rw [hC, h1]; simp
    have hpL : p ∈ (ListFile E r.index scope).foldl (fun s e => setInsert e.1 s)
        ((ListFile E cidx scope).foldl (fun s e => setInsert e.1 s) []) := by
      rw [mem_pathSet]; exact Or.inr ⟨h2, hu⟩
    exact ((hloop.2 p).1 hpL).2 hpC

theorem Demo.tree1_filePaths : FilePaths Demo.env Demo.tree1 := by
  intro p hp
  have hp' : "a.txt" = p := by
    by_contra hne
    simp [Demo.tree1, Table.find, hne] at hp
  subst hp'
  exact ⟨by decide, by decide, rfl⟩

theorem Demo.modified_wf : StoreWF Demo.env Demo.modified.objects :=
  StoreWF_of_forall _ _ (by decide)

set_option maxRecDepth 100000 in
/-- In the repository root, a hard reset of `Demo.modified` to HEAD restores `a.txt` and
deletes `b.txt`. -/
theorem Reset_work_witness :
    (Reset Demo.env "HEAD" "" true Demo.modified).2.work.find "a.txt" = some "hello"
    ∧ (Reset Demo.env "HEAD" "" true Demo.modified).2.work.find "b.txt" = none :=
  ⟨((((Reset_work Demo.env "HEAD" "" Demo.modified).2
      (Reset Demo.env "HEAD" "" true Demo.modified).2 Demo.tree1 Demo.env_collisionFree
      Demo.modified_wf rfl (by decide) Demo.tree1_filePaths (by decide)) "a.txt" rfl).1
      "hhello" "hello" (by decide) (by decide)).2 rfl,
   (((Reset_work Demo.env "HEAD" "" Demo.modified).2
      (Reset Demo.env "HEAD" "" true Demo.modified).2 Demo.tree1 Demo.env_collisionFree
      Demo.modified_wf rfl (by decide) Demo.tree1_filePaths (by decide)) "b.txt" rfl).2
      (by decide) (by decide)⟩

set_option maxRecDepth 100000 in
/-- C10 (the code at the failing input): the current directory is `sub`, below the
repository root, so `GetRelativePath` maps `a.txt` to `sub/a.txt`.  HEAD is the commit `k1`,
whose snapshot maps `a.txt` to the blob of `hello`; the index is empty and the working file
`a.txt` holds `hello2`.  The hard `Reset` to HEAD over the whole repository returns normally:
it stages `a.txt` and saves the index, its call of `Checkout` writes the does-not-exist error
for `sub/a.txt`, and the working file `a.txt` still holds `hello2`.  The path is not in the
index, so no working file is read or removed on the way.  The same call in the repository
root leaves `hello` in the file. -/
theorem Reset_hard_below_root :
    Demo.envSub.GetRelativePath "a.txt" = "sub/a.txt"
    ∧ CommitIndex Demo.envSub Demo.unstaged.objects
        (Demo.envSub.SHA1Complete Demo.unstaged.objects Demo.unstaged.HEAD) = some Demo.tree1
    ∧ Demo.envSub.underPath "" "a.txt" = true
    ∧ Demo.tree1.find "a.txt" = some "hhello"
    ∧ Demo.unstaged.objects.find "hhello" = some "hello"
    ∧ Reset Demo.envSub "HEAD" "" true Demo.unstaged
        = (.ok, { Demo.unstaged with
            index := Demo.tree1, indexFile := Demo.tree1,
            out := "  \"a.txt\" >>> index\n",
            err := "Error: sub/a.txt doesn't exist in file list" })
    ∧ (Reset Demo.envSub "HEAD" "" true Demo.unstaged).2.work.find "a.txt" = some "hello2"
    ∧ (Reset Demo.env "HEAD" "" true Demo.unstaged).2.work.find "a.txt" = some "hello" := by
  decide

set_option maxRecDepth 100000 in
/-- C9 (witness): a hard reset of `Demo.modified` to HEAD; the index agrees with the
snapshot on `a.txt` (restored) and on `b.txt` (removed). -/
theorem Reset_index_witness :
    (Reset Demo.env "HEAD" "" true Demo.modified).2.index.find "a.txt" = Demo.tree1.find "a.txt"
    ∧ (Reset Demo.env "HEAD" "" true Demo.modified).2.index.find "b.txt"
        = Demo.tree1.find "b.txt" :=
  ⟨((Reset_index Demo.env "HEAD" "" true Demo.modified
      (Reset Demo.env "HEAD" "" true Demo.modified).2 Demo.tree1 (by decide)
      (fun _ => Demo.tree1_filePaths) (by decide)) "a.txt").1 rfl,
   ((Reset_index Demo.env "HEAD" "" true Demo.modified
      (Reset Demo.env "HEAD" "" true Demo.modified).2 Demo.tree1 (by decide)
      (fun _ => Demo.tree1_filePaths) (by decide)) "b.txt").1 rfl⟩

/-! ## `Reset`: consistent and untracked paths -/

set_option maxRecDepth 100000 in
/-- A scope in which neither the target snapshot nor the index has an entry: the loop of
`Reset` has nothing to go through, and the call returns the state it was given, the two
output streams included.  `resetSingleFile` is not called, so its `is not tracked` branch is
not reached. -/
theorem Reset_empty_scope (E : Env) (id filename : String) (isHard : Bool) (r : Repo)
    (cidx : Table)
    (hci : CommitIndex E r.objects (E.SHA1Complete r.objects
      (if id = "master" then r.master else if id = "HEAD" ∨ id = "" then r.HEAD else id))
      = some cidx)
    (hc : ListFile E cidx (if filename ≠ "" then E.GetRelativePath filename else filename) = [])
    (hi : ListFile E r.index
      (if filename ≠ "" then E.GetRelativePath filename else filename) = []) :
    Reset E id filename isHard r = (.ok, r) := by
  simp only [Reset, hci, hc, hi, List.foldl_nil]
  unfold resetLoop
  rfl

/-- C12 (the code at the failing input): `nosuch.txt` is neither in the target snapshot nor
in the index; `Reset` on it, soft or hard, returns with the whole state as it was: nothing is
written to the report stream or to `std::cerr`. -/
theorem Reset_untracked_silent :
    Demo.tree1.find "nosuch.txt" = none
    ∧ Demo.modified.index.find "nosuch.txt" = none
    ∧ Reset Demo.env "HEAD" "nosuch.txt" false Demo.modified = (.ok, Demo.modified)
    ∧ Reset Demo.env "HEAD" "nosuch.txt" true Demo.modified = (.ok, Demo.modified) := by
  decide

/-! ## `Checkout`: the whole repository -/

theorem Table.find_of_mem_unique (t : Table) (hn : UniqueKeys t) (p v : String)
    (h : (p, v) ∈ t) : t.find p = some v := by
  induction t with
  | nil => simp at h
  | cons e rest ih =>
    obtain ⟨k, w⟩ := e
    have hn' : k ∉ rest.map Prod.fst ∧ UniqueKeys rest := by
      simpa [UniqueKeys] using hn
    rcases List.mem_cons.1 h with h1 | h1
    · cases h1
      simp [Table.find]
    · have hkp : k ≠ p := by
        intro e
        subst e
        exact hn'.1 (List.mem_map.2 ⟨(k, v), h1, rfl⟩)
      simp [Table.find, hkp, ih hn'.2 h1]

theorem Table.mem_of_find (t : Table) (p v : String) (h : t.find p = some v) : (p, v) ∈ t := by
  induction t with
  | nil => simp [Table.find] at h
  | cons e rest ih =>
    obtain ⟨k, w⟩ := e
    by_cases hk : k = p
    · simp [Table.find, hk] at h
      subst hk; subst h
      simp
    · simp [Table.find, hk] at h
      exact List.mem_cons_of_mem _ (ih h)

/-- Inserting the entries of a table with unique keys one after the other: a key of the
table ends with its (transformed) value, any other key keeps what it had. -/
theorem foldl_upsert_find (f : String → String) (l : Table) (hn : UniqueKeys l) (w0 : Table)
    (p : String) :
    (l.foldl (fun w e => w.upsert e.1 (f e.2)) w0).find p
      = match l.find p with
        | some v => some (f v)
        | none => w0.find p := by
  induction l generalizing w0 with
  | nil => simp [Table.find]
  | cons e rest ih =>
    obtain ⟨k, v⟩ := e
    have hn' : k ∉ rest.map Prod.fst ∧ UniqueKeys rest := by
      simpa [UniqueKeys] using hn
    rw [List.foldl_cons, ih hn'.2]
    by_cases hk : k = p
    · subst hk
      have hnone : Table.find rest k = none := by
        rw [Table.find_eq_none_iff]
        intro e he hek
        exact hn'.1 (List.mem_map.2 ⟨e, he, hek⟩)
      simp [hnone, Table.find, Table.find_upsert]
    · simp only [Table.find, hk, if_false, Table.find_upsert]

/-- The loop of the whole-repository checkout, when every blob is there. -/
theorem checkoutAll_ok (idx : Table) (r : Repo) (hb : ∀ e ∈ idx, r.objects.find e.2 ≠ none) :
    checkoutAll idx r
      = (.ok, { r with
          index := idx.foldl (fun m e => m.upsert e.1 e.2) r.index,
          work := idx.foldl (fun w e => w.upsert e.1 ((r.objects.find e.2).getD "")) r.work }) := by
  induction idx generalizing r with
  | nil => rfl
  | cons e rest ih =>
    have he := hb e (by simp)
    cases hf : r.objects.find e.2 with
    | none => exact absurd hf he
    | some bytes =>
      unfold checkoutAll
      simp only [copyObject, hf]
      rw [ih { r with index := r.index.upsert e.1 e.2, work := r.work.upsert e.1 bytes }
        (fun e' he' => hb e' (by simp [he']))]
      simp [hf]

theorem checkoutAll_index_find (idx : Table) (hn : UniqueKeys idx) (p : String) :
    Table.find (idx.foldl (fun (m : Table) e => m.upsert e.1 e.2) ([] : Table)) p
      = idx.find p := by
  have := foldl_upsert_find (fun x => x) idx hn [] p
  simp only [Table.find] at this
  rw [this]
  cases idx.find p <;> rfl

theorem checkoutAll_work_find (objects : Table) (idx : Table) (hn : UniqueKeys idx)
    (w0 : Table) (p : String) :
    (idx.foldl (fun w e => w.upsert e.1 ((objects.find e.2).getD "")) w0).find p
      = match idx.find p with
        | some id => some ((objects.find id).getD "")
        | none => w0.find p :=
  foldl_upsert_find (fun id => (objects.find id).getD "") idx hn w0 p

/-- The whole-repository checkout of a readable snapshot in a clean state, when every blob
is there. -/
theorem Checkout_whole_run (E : Env) (commitid : String) (r : Repo) (idx : Table)
    (hsrc : (if E.SHA1Complete r.objects commitid = "" then some r.index
      else CommitIndex E r.objects (E.SHA1Complete r.objects commitid)) = some idx)
    (hex : E.SHA1Complete r.objects commitid = ""
      ∨ Objects.IsExist r.objects (E.SHA1Complete r.objects commitid) = true)
    (hclean : E.IsClean r = true) (hb : ∀ e ∈ idx, r.objects.find e.2 ≠ none) :
    Checkout E commitid "" r
      = (.ok, { r with
          index := idx.foldl (fun m e => m.upsert e.1 e.2) [],
          indexFile := idx.foldl (fun m e => m.upsert e.1 e.2) [],
          work := idx.foldl (fun w e => w.upsert e.1 ((r.objects.find e.2).getD "")) r.work,
          HEAD := E.SHA1Complete r.objects commitid }) := by
  have hguard : ¬ (E.SHA1Complete r.objects commitid ≠ ""
      ∧ Objects.IsExist r.objects (E.SHA1Complete r.objects commitid) = false) := by
    rcases hex with h | h
    · simp [h]
    · simp [h]
  unfold Checkout
  simp only [hguard, if_false, ne_eq, not_true_eq_false, hsrc, if_true, hclean,
    Bool.true_eq_false]
  rw [checkoutAll_ok idx { r with index := [] } hb]

/-- C13: the whole-repository checkout of a non-empty (completed) commit id `cid`.  When
no object `cid` exists, or when the snapshot can be read and the status is not clean, an error
is written to `std::cerr` and nothing else changes (index, working tree, HEAD, master).  When
the snapshot `cidx` can be read, the status is clean and every blob of the snapshot is in the
object directory, the call returns normally: the index maps exactly the paths of the snapshot
to their ids and is saved, each of those paths holds in the working tree the bytes of its
blob, HEAD is `cid` and master is unchanged. -/
theorem Checkout_whole (E : Env) (commitid : String) (r : Repo) (cid : String)
    (hcid : cid = E.SHA1Complete r.objects commitid) (hne : cid ≠ "") :
    (Objects.IsExist r.objects cid = false →
      Checkout E commitid "" r
        = (.ok, { r with err := r.err ++ "Error: Commit " ++ cid ++ " doesn't exist.\n" }))
    ∧ (∀ cidx, CommitIndex E r.objects cid = some cidx → E.IsClean r = false →
      Checkout E commitid "" r
        = (.ok, { r with err := r.err ++
            "Error: You have something staged. Commit or reset before checkout.\n" }))
    ∧ (∀ cidx, CommitIndex E r.objects cid = some cidx → E.IsClean r = true →
        UniqueKeys cidx → (∀ e ∈ cidx, r.objects.find e.2 ≠ none) →
        ∃ r', Checkout E commitid "" r = (.ok, r')
          ∧ (∀ p, r'.index.find p = cidx.find p)
          ∧ r'.indexFile = r'.index
          ∧ (∀ p id, cidx.find p = some id →
              ∃ bytes, r.objects.find id = some bytes ∧ r'.work.find p = some bytes)
          ∧ r'.HEAD = cid ∧ r'.master = r.master ∧ r'.objects = r.objects) := by
  subst hcid
  refine ⟨?_, ?_, ?_⟩
  · intro hex
    simp [Checkout, hne, hex]
  · intro cidx hci hclean
    have hex := CommitIndex_exists E _ _ _ hci
    simp [Checkout, hne, hex, hci, hclean]
  · intro cidx hci hclean hkeys hb
    have hex := CommitIndex_exists E _ _ _ hci
    refine ⟨_, Checkout_whole_run E commitid r cidx (by simp [hne, hci]) (Or.inr hex) hclean hb,
      ?_, rfl, ?_, rfl, rfl, rfl⟩
    · intro p
      exact checkoutAll_index_find cidx hkeys p
    · intro p id hp
      have hmem := Table.mem_of_find cidx p id hp
      have hblob := hb (p, id) hmem
      cases hf : r.objects.find id with
      | none => exact absurd hf hblob
      | some bytes =>
        refine ⟨bytes, rfl, ?_⟩
        show Table.find (cidx.foldl
          (fun w e => w.upsert e.1 ((r.objects.find e.2).getD "")) r.work) p = some bytes
        rw [checkoutAll_work_find r.objects cidx hkeys r.work p, hp]
        simp [hf]

set_option maxRecDepth 100000 in
/-- C13 (witness): checking out commit `k1` over `Demo.modified`. -/
theorem Checkout_whole_witness :
    ∃ r', Checkout Demo.env Demo.kid1 "" Demo.modified = (.ok, r')
      ∧ (∀ p, r'.index.find p = Demo.tree1.find p)
      ∧ r'.indexFile = r'.index
      ∧ (∀ p id, Demo.tree1.find p = some id →
          ∃ bytes, Demo.modified.objects.find id = some bytes ∧ r'.work.find p = some bytes)
      ∧ r'.HEAD = Demo.kid1 ∧ r'.master = Demo.modified.master
      ∧ r'.objects = Demo.modified.objects :=
  (Checkout_whole Demo.env Demo.kid1 Demo.modified Demo.kid1 rfl (by decide)).2.2
    Demo.tree1 (by decide) (by decide) (by unfold UniqueKeys; decide) (by decide)

/-- C19: the whole-repository checkout with an empty commit id (which `SHA1Complete`
leaves empty), in a clean state whose index has unique keys and whose blobs are all in the
object directory: the call returns normally, the index maps every path to what it mapped
before and is saved, HEAD is the empty string (hence not `EMPTY_REF`, when that constant is
not empty) and master is unchanged. -/
theorem Checkout_whole_empty_id (E : Env) (r : Repo)
    (hcomplete : E.SHA1Complete r.objects "" = "") (hclean : E.IsClean r = true)
    (hkeys : UniqueKeys r.index) (hblobs : ∀ e ∈ r.index, r.objects.find e.2 ≠ none) :
    ∃ r', Checkout E "" "" r = (.ok, r')
      ∧ (∀ p, r'.index.find p = r.index.find p)
      ∧ r'.indexFile = r'.index
      ∧ r'.HEAD = ""
      ∧ (E.EMPTY_REF ≠ "" → r'.HEAD ≠ E.EMPTY_REF)
      ∧ r'.master = r.master := by
  have hrun := Checkout_whole_run E "" r r.index (by simp [hcomplete]) (Or.inl hcomplete)
    hclean hblobs
  refine ⟨_, hrun, ?_, rfl, hcomplete, ?_, rfl⟩
  · intro p
    exact checkoutAll_index_find r.index hkeys p
  · intro h
    show E.SHA1Complete r.objects "" ≠ E.EMPTY_REF
    rw [hcomplete]
    exact fun e => h e.symm

set_option maxRecDepth 100000 in
/-- C19 (witness): `Checkout ("", "")` on `Demo.modified`. -/
theorem Checkout_whole_empty_id_witness :
    ∃ r', Checkout Demo.env "" "" Demo.modified = (.ok, r')
      ∧ (∀ p, r'.index.find p = Demo.modified.index.find p)
      ∧ r'.indexFile = r'.index
      ∧ r'.HEAD = ""
      ∧ (Demo.env.EMPTY_REF ≠ "" → r'.HEAD ≠ Demo.env.EMPTY_REF)
      ∧ r'.master = Demo.modified.master :=
  Checkout_whole_empty_id Demo.env Demo.modified rfl (by decide)
    (by unfold UniqueKeys; decide) (by decide)

/-! ## `Checkout`: one path -/

/-- The loop of the path-scoped checkout changes nothing but the working tree, and a
working-tree file it changed holds the blob of an entry of the list. -/
theorem checkoutList_work (l : Table) (r : Repo) :
    ∃ w, (checkoutList l r).2 = { r with work := w }
      ∧ ∀ p, w.find p = r.work.find p
        ∨ ∃ id bytes, (p, id) ∈ l ∧ r.objects.find id = some bytes ∧ w.find p = some bytes := by
  induction l generalizing r with
  | nil => exact ⟨r.work, rfl, fun p => Or.inl rfl⟩
  | cons e rest ih =>
    unfold checkoutList
    cases hc : copyObject e.2 e.1 r with
    | none => exact ⟨r.work, rfl, fun p => Or.inl rfl⟩
    | some r1 =>
      obtain ⟨bytes, hblob, rfl⟩ := copyObject_some _ _ _ _ hc
      obtain ⟨w, hw, hp⟩ := ih { r with work := r.work.upsert e.1 bytes }
      refine ⟨w, by simpa using hw, fun p => ?_⟩
      rcases hp p with h | ⟨id, b, hmem, hb, hf⟩
      · simp only [Table.find_upsert] at h
        by_cases hep : e.1 = p
        · right
          rw [if_pos hep] at h
          refine ⟨e.2, bytes, ?_, hblob, h⟩
          rw [← hep]
          simp
        · left
          rw [if_neg hep] at h
          exact h
      · right
        exact ⟨id, b, List.mem_cons_of_mem _ hmem, hb, hf⟩

/-- C14: `Checkout` with a non-empty path whose repository-relative form `fn` is not
empty.  Whatever the outcome, the index, the saved index, HEAD, master and the object
directory are as before.  A working-tree file that differs afterwards is at a path of an entry
of the source snapshot that is `fn` itself or lies under `fn`, and holds the bytes of the blob
of that entry.  When the snapshot has no entry to copy on its own for `fn` and `ListFile`
finds nothing under it, the call writes the does-not-exist error and changes nothing
else. -/
theorem Checkout_path (E : Env) (commitid filename : String) (r : Repo) (fn cid : String)
    (hfn : filename ≠ "") (hrel : fn = E.GetRelativePath filename) (hfn' : fn ≠ "")
    (hcid : cid = E.SHA1Complete r.objects commitid) :
    ((Checkout E commitid filename r).2.index = r.index
      ∧ (Checkout E commitid filename r).2.indexFile = r.indexFile
      ∧ (Checkout E commitid filename r).2.HEAD = r.HEAD
      ∧ (Checkout E commitid filename r).2.master = r.master
      ∧ (Checkout E commitid filename r).2.objects = r.objects)
    ∧ (∀ p, (Checkout E commitid filename r).2.work.find p = r.work.find p
        ∨ ∃ idx id bytes,
          (if cid = "" then some r.index else CommitIndex E r.objects cid) = some idx
          ∧ (p, id) ∈ idx ∧ (p = fn ∨ E.underPath fn p = true)
          ∧ r.objects.find id = some bytes
          ∧ (Checkout E commitid filename r).2.work.find p = some bytes)
    ∧ (∀ idx, (if cid = "" then some r.index else CommitIndex E r.objects cid) = some idx →
        (cid = "" ∨ Objects.IsExist r.objects cid = true) →
        ¬ (fn.data.getLast? ≠ some '/' ∧ idx.has fn = true) →
        ListFile E idx fn = [] →
        Checkout E commitid filename r
          = (.ok, { r with err := r.err ++ "Error: " ++ fn ++ " doesn't exist in file list" }))
    := by
  subst hrel
  subst hcid
  have hshape : ∃ w e, (Checkout E commitid filename r).2 = { r with work := w, err := e }
      ∧ ∀ p, w.find p = r.work.find p
        ∨ ∃ idx id bytes,
          (if E.SHA1Complete r.objects commitid = "" then some r.index
            else CommitIndex E r.objects (E.SHA1Complete r.objects commitid)) = some idx
          ∧ (p, id) ∈ idx
          ∧ (p = E.GetRelativePath filename ∨ E.underPath (E.GetRelativePath filename) p = true)
          ∧ r.objects.find id = some bytes ∧ w.find p = some bytes := by
    unfold Checkout
    simp only [hfn, ne_eq, not_false_eq_true, if_true, hfn', if_false]
    split
    · exact ⟨r.work, _, rfl, fun p => Or.inl rfl⟩
    · split
      · exact ⟨r.work, r.err, rfl, fun p => Or.inl rfl⟩
      · rename_i idx hsrc
        split
        · rename_i hsingle
          split
          · exact ⟨r.work, r.err, rfl, fun p => Or.inl rfl⟩
          · rename_i objpath hfind
            split
            · exact ⟨r.work, r.err, rfl, fun p => Or.inl rfl⟩
            · rename_i r1 hc
              obtain ⟨bytes, hblob, rfl⟩ := copyObject_some _ _ _ _ hc
              refine ⟨_, r.err, rfl, fun p => ?_⟩
              simp only [Table.find_upsert]
              by_cases hp : E.GetRelativePath filename = p
              · right
                rw [if_pos hp]
                exact ⟨idx, objpath, bytes, hsrc, by
                  rw [← hp]; exact Table.mem_of_find _ _ _ hfind, Or.inl hp.symm, hblob, rfl⟩
              · left
                rw [if_neg hp]
        · split
          · obtain ⟨w, hw, hp⟩ := checkoutList_work
              (ListFile E idx (E.GetRelativePath filename)) r
            refine ⟨w, r.err, by rw [hw], fun p => ?_⟩
            rcases hp p with h | ⟨id, bytes, hmem, hb, hf⟩
            · exact Or.inl h
            · rw [mem_ListFile] at hmem
              exact Or.inr ⟨idx, id, bytes, hsrc, hmem.1, Or.inr hmem.2, hb, hf⟩
          · exact ⟨r.work, _, rfl, fun p => Or.inl rfl⟩
  obtain ⟨w, e, hres, hwork⟩ := hshape
  refine ⟨?_, ?_, ?_⟩
  · rw [hres]
    exact ⟨rfl, rfl, rfl, rfl, rfl⟩
  · intro p
    rw [hres]
    exact hwork p
  · intro idx hsrc hex hnot hlist
    have hguard : ¬ (E.SHA1Complete r.objects commitid ≠ ""
        ∧ Objects.IsExist r.objects (E.SHA1Complete r.objects commitid) = false) := by
      rcases hex with h | h
      · simp [h]
      · simp [h]
    unfold Checkout
    simp only [hguard, if_false, hfn, ne_eq, not_false_eq_true, if_true, hsrc, hfn', hnot,
      hlist, not_true_eq_false]

set_option maxRecDepth 100000 in
/-- C14 (witness): a path that commit `k1` does not have. -/
theorem Checkout_path_witness :
    Checkout Demo.env Demo.kid1 "nosuch.txt" Demo.modified
      = (.ok, { Demo.modified with
          err := Demo.modified.err ++ "Error: " ++ "nosuch.txt" ++ " doesn't exist in file list" }) :=
  (Checkout_path Demo.env Demo.kid1 "nosuch.txt" Demo.modified "nosuch.txt" Demo.kid1
    (by decide) rfl (by decide) rfl).2.2 Demo.tree1 (by decide) (Or.inr (by decide))
    (by decide) (by decide)

/-! ## `GarbageCollection` -/

theorem gcLoop_find (refs : List String) (L : List String) (s : Table) (id : String) :
    (gcLoop refs L s).find id = if id ∈ L ∧ id ∉ refs then none else s.find id := by
  induction L generalizing s with
  | nil => simp [gcLoop]
  | cons el rest ih =>
    unfold gcLoop
    by_cases hel : el ∈ refs
    · simp only [hel, if_true, ih]
      by_cases hid : id = el
      · subst hid
        simp [hel]
      · simp [hid]
    · simp only [hel, if_false, ih, Objects.Remove, Table.find_erase]
      by_cases hid : id = el
      · subst hid
        simp [hel]
      · have : ¬ el = id := fun e => hid e.symm
        simp [hid, this]

theorem gcLoop_keys_find (refs : List String) (s : Table) (id : String) :
    (gcLoop refs (Objects.ListExistedObjects s) s).find id
      = if id ∈ refs then s.find id else none := by
  rw [gcLoop_find]
  by_cases hr : id ∈ refs
  · simp [hr]
  · simp only [hr, not_false_eq_true, and_true, if_false]
    by_cases hk : id ∈ Objects.ListExistedObjects s
    · simp [hk]
    · simp only [hk, if_false]
      rw [Table.find_eq_none_iff]
      intro e he hek
      exact hk (List.mem_map.2 ⟨e, he, hek⟩)

theorem gcLoop_id (refs : List String) (L : List String) (s : Table)
    (h : ∀ el ∈ L, el ∈ refs) : gcLoop refs L s = s := by
  induction L generalizing s with
  | nil => rfl
  | cons el rest ih =>
    unfold gcLoop
    simp only [h el (by simp), if_true]
    exact ih s (fun e he => h e (by simp [he]))

theorem ListReferedObjects_congr (E : Env) (s s' : Table) (fuel : Nat) (id : String)
    (refs : List String) (hagree : ∀ x ∈ refs, s'.find x = s.find x)
    (h : Objects.ListReferedObjects E s fuel id = .ok refs) :
    Objects.ListReferedObjects E s' fuel id = .ok refs := by
  induction fuel generalizing id refs with
  | zero =>
    unfold Objects.ListReferedObjects at h ⊢
    exact h
  | succ n ih =>
    unfold Objects.ListReferedObjects at h ⊢
    by_cases hid : id = E.EMPTY_REF
    · simp only [hid, if_true] at h ⊢
      exact h
    · simp only [hid, if_false] at h ⊢
      cases hg : Objects.GetCommit E s id with
      | none => simp [hg] at h
      | some commit =>
        simp only [hg] at h
        cases ht : Objects.GetTree E s commit with
        | none => simp [ht] at h
        | some tree =>
          simp only [ht] at h
          cases hrec : Objects.ListReferedObjects E s n commit.parent with
          | error e => simp [hrec] at h
          | ok refs' =>
            simp only [hrec, Except.ok.injEq] at h
            subst h
            have h1 : s'.find id = s.find id := hagree id (by simp)
            have h2 : s'.find commit.tree = s.find commit.tree := hagree _ (by simp)
            have hg' : Objects.GetCommit E s' id = some commit := by
              unfold Objects.GetCommit at hg ⊢
              rw [h1]; exact hg
            have ht' : Objects.GetTree E s' commit = some tree := by
              unfold Objects.GetTree at ht ⊢
              rw [h2]; exact ht
            have hrec' := ih commit.parent refs'
              (fun x hx => hagree x (by simp [hx])) hrec
            simp only [hg', ht', hrec']

/-- The walk of the reachable set along a chain whose trees can be read. -/
theorem ListReferedObjects_chain (E : Env) (s : Table) (fuel : Nat) (id : String)
    (chain : List (String × Objects.Commit)) (hchain : IsChain E s id chain)
    (htrees : ∀ e ∈ chain, Objects.GetTree E s e.2 ≠ none) (hfuel : chain.length ≤ fuel) :
    ∃ refs, Objects.ListReferedObjects E s fuel id = .ok refs
      ∧ ∀ x, x ∈ refs ↔ ∃ e ∈ chain, RefersTo E s e x := by
  induction chain generalizing id fuel with
  | nil =>
    have hid : id = E.EMPTY_REF := hchain
    refine ⟨[], ?_, by simp⟩
    cases fuel <;> simp [Objects.ListReferedObjects, hid]
  | cons e rest ih =>
    obtain ⟨hne, hid, hg, hc⟩ := hchain
    cases fuel with
    | zero => simp at hfuel
    | succ n =>
      have hte := htrees e (by simp)
      cases ht : Objects.GetTree E s e.2 with
      | none => exact absurd ht hte
      | some tree =>
        obtain ⟨refs, hrefs, hmem⟩ := ih n e.2.parent hc
          (fun e' he' => htrees e' (by simp [he'])) (by simpa using hfuel)
        refine ⟨id :: e.2.tree :: (tree.map Prod.snd ++ refs), ?_, ?_⟩
        · simp [Objects.ListReferedObjects, hne, hg, ht, hrefs]
        · intro x
          simp only [List.mem_cons, List.mem_append, List.mem_map, hmem, exists_eq_or_imp,
            RefersTo, ht, Option.some.injEq]
          constructor
          · rintro (h | h | ⟨⟨p, v⟩, hpv, rfl⟩ | h)
            · exact Or.inl (Or.inl (h.trans hid.symm))
            · exact Or.inl (Or.inr (Or.inl h))
            · exact Or.inl (Or.inr (Or.inr ⟨tree, p, rfl, hpv⟩))
            · exact Or.inr h
          · rintro ((h | h | ⟨t, p, rfl, hpv⟩) | h)
            · exact Or.inl (h.trans hid)
            · exact Or.inr (Or.inl h)
            · exact Or.inr (Or.inr (Or.inl ⟨(p, x), hpv, rfl⟩))
            · exact Or.inr (Or.inr (Or.inr h))

/-- C15: when the walk of the referenced set succeeds, `GarbageCollection` returns
normally and an id has an object afterwards exactly when it had one before and is referenced,
with the same bytes; HEAD, master, the index and the working tree are unchanged.  When
master's chain is finite, ends at `EMPTY_REF` and its trees can be read, the walk succeeds for
every fuel that covers the chain, and the referenced ids are exactly: the commits of the
chain, their trees, and the blobs named in those trees. -/
theorem GarbageCollection_keeps_referenced (E : Env) (fuel : Nat) (r : Repo) :
    (∀ refs, Objects.ListReferedObjects E r.objects fuel r.master = .ok refs →
      ∃ r', GarbageCollection E fuel r = (.ok, r')
        ∧ (∀ id, r'.objects.find id = if id ∈ refs then r.objects.find id else none)
        ∧ r'.HEAD = r.HEAD ∧ r'.master = r.master ∧ r'.index = r.index
        ∧ r'.indexFile = r.indexFile ∧ r'.work = r.work)
    ∧ (∀ chain, IsChain E r.objects r.master chain →
        (∀ e ∈ chain, Objects.GetTree E r.objects e.2 ≠ none) → chain.length ≤ fuel →
        ∃ refs, Objects.ListReferedObjects E r.objects fuel r.master = .ok refs
          ∧ ∀ x, x ∈ refs ↔ ∃ e ∈ chain, RefersTo E r.objects e x) := by
  constructor
  · intro refs hrefs
    refine ⟨{ r with objects := gcLoop refs (Objects.ListExistedObjects r.objects) r.objects },
      ?_, ?_, rfl, rfl, rfl, rfl, rfl⟩
    · simp [GarbageCollection, hrefs]
    · intro id
      exact gcLoop_keys_find refs r.objects id
  · intro chain hchain htrees hfuel
    exact ListReferedObjects_chain E r.objects fuel r.master chain hchain htrees hfuel

set_option maxRecDepth 100000 in
/-- C15 (witness): in `Demo.modified` the blobs staged after commit `k1` are not referenced
and are removed; the commit, its tree and its blob stay. -/
theorem GarbageCollection_keeps_referenced_witness :
    (GarbageCollection Demo.env 1 Demo.modified).1 = .ok
    ∧ (GarbageCollection Demo.env 1 Demo.modified).2.objects
        = [("hhello", "hello"), (Demo.treeId, Demo.env.serializeIndex Demo.tree1),
           (Demo.kid1, Demo.env.serializeCommit Demo.k1)]
    ∧ ∃ refs, Objects.ListReferedObjects Demo.env Demo.modified.objects 1 Demo.modified.master
          = .ok refs
        ∧ ∀ x, x ∈ refs ↔
            ∃ e ∈ [(Demo.kid1, Demo.k1)], RefersTo Demo.env Demo.modified.objects e x :=
  ⟨by decide, by decide,
    (GarbageCollection_keeps_referenced Demo.env 1 Demo.modified).2 [(Demo.kid1, Demo.k1)]
      ((Log_eq_some_iff Demo.env Demo.modified.objects 1 Demo.modified.master
        [(Demo.kid1, Demo.k1)]).1 (by decide)).1
      (by decide) (by decide)⟩

/-- C16: a second `GarbageCollection` right after a first one ends as the first did and
leaves the state the first one produced: it deletes nothing. -/
theorem GarbageCollection_idempotent (E : Env) (fuel : Nat) (r : Repo) :
    GarbageCollection E fuel (GarbageCollection E fuel r).2 = GarbageCollection E fuel r := by
  cases hrefs : Objects.ListReferedObjects E r.objects fuel r.master with
  | error e =>
    have h1 : GarbageCollection E fuel r = (e, r) := by simp [GarbageCollection, hrefs]
    rw [h1]
    exact h1
  | ok refs =>
    have h1 : GarbageCollection E fuel r
        = (.ok, { r with
            objects := gcLoop refs (Objects.ListExistedObjects r.objects) r.objects }) := by
      simp [GarbageCollection, hrefs]
    have hagree : ∀ x ∈ refs,
        (gcLoop refs (Objects.ListExistedObjects r.objects) r.objects).find x
          = r.objects.find x := by
      intro x hx
      rw [gcLoop_keys_find, if_pos hx]
    have hrefs' := ListReferedObjects_congr E r.objects
      (gcLoop refs (Objects.ListExistedObjects r.objects) r.objects) fuel r.master refs
      hagree hrefs
    have hkeys : ∀ el ∈ Objects.ListExistedObjects
        (gcLoop refs (Objects.ListExistedObjects r.objects) r.objects), el ∈ refs := by
      intro el hel
      by_contra hn
      have hnone := gcLoop_keys_find refs r.objects el
      rw [if_neg hn, Table.find_eq_none_iff] at hnone
      obtain ⟨e, he, hek⟩ := List.mem_map.1 hel
      exact hnone e he hek
    rw [h1]
    simp only [GarbageCollection, hrefs', gcLoop_id refs _ _ hkeys]

/-! ## `Commit`: the depth of the chain -/

/-- What a successful plain `Commit` has done. -/
theorem Commit_plain_inv (E : Env) (fuel : Nat) (datetime msg : String) (r r' : Repo)
    (h : Commit E fuel datetime msg false r = (.ok, r')) :
    ∃ commit : Objects.Commit, commit.parent = r.master
      ∧ r' = { r with
          objects := (Objects.WriteCommit E (Objects.WriteIndex E r.objects r.index).2 commit).2,
          master := (Objects.WriteCommit E (Objects.WriteIndex E r.objects r.index).2 commit).1,
          HEAD := (Objects.WriteCommit E (Objects.WriteIndex E r.objects r.index).2 commit).1 }
    := by
  by_cases hg : r.HEAD ≠ r.master ∧ false = false
  · simp [Commit, hg] at h
  · have hh : r.HEAD = r.master := by simpa using hg
    cases hmsg : r.COMMIT_MSG with
    | none => simp [Commit, hh, hmsg] at h
    | some text =>
      by_cases h1 : (if msg = "" then getCommitMessage text else msg) = ""
      · simp [Commit, hh, hmsg, h1] at h
      · by_cases h2 : Config.Get E r.config "user.name" = E.NOT_FOUND
        · simp [Commit, hh, hmsg, h1, h2] at h
        · by_cases h3 : Config.Get E r.config "user.email" = E.NOT_FOUND
          · simp [Commit, hh, hmsg, h1, h2, h3] at h
          · simp only [Commit, hh, hmsg, h1, h2, h3, ne_eq, not_true_eq_false, false_and,
              if_false, if_true, Prod.mk.injEq, true_and] at h
            exact ⟨_, rfl, h.symm⟩

/-- What a successful amending `Commit` has done. -/
theorem Commit_amend_inv (E : Env) (fuel : Nat) (datetime msg : String) (r r' : Repo)
    (h : Commit E fuel datetime msg true r = (.ok, r')) :
    ∃ (old nc : Objects.Commit) (olds : List (String × Objects.Commit)),
      Objects.GetCommit E r.objects r.HEAD = some old
      ∧ nc.parent = old.parent
      ∧ amendCollect E (Objects.WriteCommit E (Objects.WriteIndex E r.objects r.index).2 nc).2
          r.HEAD fuel r.master = .ok olds
      ∧ r' = { r with
          objects := (amendRewrite E
            (Objects.WriteCommit E (Objects.WriteIndex E r.objects r.index).2 nc).1
            (Objects.WriteCommit E (Objects.WriteIndex E r.objects r.index).2 nc).2 olds).2,
          master := (amendRewrite E
            (Objects.WriteCommit E (Objects.WriteIndex E r.objects r.index).2 nc).1
            (Objects.WriteCommit E (Objects.WriteIndex E r.objects r.index).2 nc).2 olds).1,
          HEAD := (Objects.WriteCommit E (Objects.WriteIndex E r.objects r.index).2 nc).1 } := by
  cases hmsg : r.COMMIT_MSG with
  | none => simp [Commit, hmsg] at h
  | some text =>
    by_cases h1 : (if msg = "" then getCommitMessage text else msg) = ""
    · simp [Commit, hmsg, h1] at h
    · by_cases h2 : Config.Get E r.config "user.name" = E.NOT_FOUND
      · simp [Commit, hmsg, h1, h2] at h
      · by_cases h3 : Config.Get E r.config "user.email" = E.NOT_FOUND
        · simp [Commit, hmsg, h1, h2, h3] at h
        · cases h4 : Objects.GetCommit E r.objects r.HEAD with
          | none => simp [Commit, hmsg, h1, h2, h3, h4] at h
          | some old =>
            simp only [Commit, hmsg, h1, h2, h3, h4, Bool.true_eq_false, and_false,
              if_false, Option.map_some'] at h
            split at h
            · rename_i r2 heq
              simp only [Prod.mk.injEq, true_and] at h
              obtain ⟨olds, hcol, hr2⟩ := amend_ok _ _ _ _ _ _ heq
              subst hr2
              rw [← hmsg] at h
              refine ⟨old, Objects.Commit.mk (Objects.WriteIndex E r.objects r.index).1 old.parent
                (E.AuthorString (Config.Get E r.config "user.name")
                  (Config.Get E r.config "user.email") datetime)
                (E.AuthorString (Config.Get E r.config "user.name")
                  (Config.Get E r.config "user.email") datetime)
                (if msg = "" then getCommitMessage text else msg), olds, rfl, rfl, hcol, ?_⟩
              rw [← h]
              simp [hmsg]
            · rename_i e r2 hne heq
              simp only [Prod.mk.injEq] at h
              exact absurd h.1 (hne ·)

/-- A `Commit` that does not return normally leaves HEAD and master as they were. -/
theorem Commit_not_ok_refs (E : Env) (fuel : Nat) (datetime msg : String) (isAmend : Bool)
    (r : Repo) (h : (Commit E fuel datetime msg isAmend r).1 ≠ .ok) :
    (Commit E fuel datetime msg isAmend r).2.HEAD = r.HEAD
    ∧ (Commit E fuel datetime msg isAmend r).2.master = r.master := by
  by_cases hg : r.HEAD ≠ r.master ∧ isAmend = false
  · simp [Commit, hg]
  · cases hmsg : r.COMMIT_MSG with
    | none => simp [Commit, hg, hmsg]
    | some text =>
      by_cases h1 : (if msg = "" then getCommitMessage text else msg) = ""
      · simp [Commit, hg, hmsg, h1]
      · by_cases h2 : Config.Get E r.config "user.name" = E.NOT_FOUND
        · simp [Commit, hg, hmsg, h1, h2]
        · by_cases h3 : Config.Get E r.config "user.email" = E.NOT_FOUND
          · simp [Commit, hg, hmsg, h1, h2, h3]
          · cases isAmend with
            | false =>
              have hh : r.HEAD = r.master := by simpa using hg
              simp [Commit, hh, hmsg, h1, h2, h3] at h
            | true =>
              cases h4 : Objects.GetCommit E r.objects r.HEAD with
              | none => simp [Commit, hmsg, h1, h2, h3, h4]
              | some old =>
                simp only [Commit, hmsg, h1, h2, h3, h4, Bool.true_eq_false, and_false,
                  if_false, Option.map_some'] at h ⊢
                split
                · rename_i r2 heq
                  rw [heq] at h
                  simp at h
                · rename_i e r2 hne heq
                  unfold amend at heq
                  split at heq
                  · simp only [Prod.mk.injEq] at heq
                    rw [← heq.2]
                    exact ⟨rfl, rfl⟩
                  · simp only [Prod.mk.injEq] at heq
                    exact absurd heq.1.symm (hne ·)

theorem StoreWF_nil (E : Env) : StoreWF E [] := by
  intro id b h
  simp [Table.find] at h

/-- C17: chain depth.  The digest is collision free and never `EMPTY_REF`, and parsing a
serialized commit gives it back.  In a state reached from a freshly initialised repository
(HEAD and master at `EMPTY_REF`, no object) by `n` successful plain commits, between which
objects may be added while the refs stay as they are, the walk from master along the parent
pointers reads exactly `n` commits and then arrives at `EMPTY_REF`: `Log` with fuel `n` gives
a chain of length `n`, and with any smaller fuel it gives nothing. -/
theorem PlainHistory_depth (E : Env) (hinj : E.CollisionFree) (hrt : E.CommitRoundTrip)
    (hne : E.DigestNotEmptyRef) (n : Nat) (r : Repo) (h : PlainHistory E n r) :
    ∃ chain, Log E r.objects n r.master = some chain ∧ chain.length = n
      ∧ ∀ m, m < n → Log E r.objects m r.master = none := by
  have key : StoreWF E r.objects ∧ ∃ chain, IsChain E r.objects r.master chain
      ∧ chain.length = n := by
    induction h with
    | init r _ hm ho =>
      rw [ho]
      exact ⟨StoreWF_nil E, [], hm, rfl⟩
    | stage n r r1 _ _ hm hle hwf ih =>
      obtain ⟨_, chain, hch, hlen⟩ := ih
      exact ⟨hwf, chain, by rw [hm]; exact IsChain_mono E _ _ hle _ _ hch, hlen⟩
    | commit n r r' fuel datetime msg _ hrun ih =>
      obtain ⟨hwf, chain, hch, hlen⟩ := ih
      obtain ⟨commit, hpar, hr'⟩ := Commit_plain_inv E fuel datetime msg r r' hrun
      subst hr'
      have hle1 := put_le E hinj r.objects hwf (E.serializeIndex r.index)
      have hwf1 := put_wf E r.objects hwf (E.serializeIndex r.index)
      have hle2 := put_le E hinj _ hwf1 (E.serializeCommit commit)
      have hwf2 := put_wf E _ hwf1 (E.serializeCommit commit)
      refine ⟨hwf2, (_, commit) :: chain, ⟨hne _, rfl, GetCommit_WriteCommit E hrt _ _, ?_⟩, by
        simp [hlen]⟩
      simp only [hpar]
      exact IsChain_mono E _ _ (Table.le_trans _ _ _ hle1 hle2) _ _ hch
  obtain ⟨_, chain, hch, hlen⟩ := key
  refine ⟨chain, (Log_eq_some_iff E _ _ _ _).2 ⟨hch, by omega⟩, hlen, ?_⟩
  intro m hm
  cases hl : Log E r.objects m r.master with
  | none => rfl
  | some l =>
    obtain ⟨hch', hlen'⟩ := (Log_eq_some_iff E _ _ _ _).1 hl
    have := IsChain_unique E _ _ _ _ hch hch'
    subst this
    omega

set_option maxRecDepth 100000 in
/-- C17 (witness): two plain commits in a freshly initialised repository. -/
theorem PlainHistory_depth_witness :
    ∃ chain,
      Log Demo.env
          (Commit Demo.env 0 "d2" "second" false
            (Commit Demo.env 0 "d1" "first" false Demo.fresh).2).2.objects 2
          (Commit Demo.env 0 "d2" "second" false
            (Commit Demo.env 0 "d1" "first" false Demo.fresh).2).2.master = some chain
      ∧ chain.length = 2
      ∧ ∀ m, m < 2 →
          Log Demo.env
            (Commit Demo.env 0 "d2" "second" false
              (Commit Demo.env 0 "d1" "first" false Demo.fresh).2).2.objects m
            (Commit Demo.env 0 "d2" "second" false
              (Commit Demo.env 0 "d1" "first" false Demo.fresh).2).2.master = none :=
  PlainHistory_depth Demo.env Demo.env_collisionFree Demo.env_commitRoundTrip
    Demo.env_digestNotEmptyRef 2 _
    (PlainHistory.commit 1 _ _ 0 "d2" "second"
      (PlainHistory.commit 0 _ _ 0 "d1" "first" (PlainHistory.init Demo.fresh rfl rfl rfl)
        (by decide : Commit Demo.env 0 "d1" "first" false Demo.fresh
          = (.ok, (Commit Demo.env 0 "d1" "first" false Demo.fresh).2)))
      (by decide : Commit Demo.env 0 "d2" "second" false
          (Commit Demo.env 0 "d1" "first" false Demo.fresh).2
        = (.ok, (Commit Demo.env 0 "d2" "second" false
            (Commit Demo.env 0 "d1" "first" false Demo.fresh).2).2)))

/-! ## `amend`: the identity cascade -/

theorem GetCommit_mono (E : Env) (s s' : Table) (hle : Table.le s s') (id : String)
    (c : Objects.Commit) (h : Objects.GetCommit E s id = some c) :
    Objects.GetCommit E s' id = some c := by
  unfold Objects.GetCommit at h ⊢
  cases hf : s.find id with
  | none => simp [hf] at h
  | some x => rw [hle _ _ hf]; rw [hf] at h; exact h

theorem IsChain_mem_get (E : Env) (s : Table) (id : String)
    (l : List (String × Objects.Commit)) (h : IsChain E s id l) :
    ∀ e ∈ l, Objects.GetCommit E s e.1 = some e.2 ∧ e.1 ≠ E.EMPTY_REF := by
  induction l generalizing id with
  | nil => simp
  | cons e0 t ih =>
    obtain ⟨h1, h2, h3, h4⟩ := h
    intro e he
    rcases List.mem_cons.1 he with rfl | he
    · rw [h2]; exact ⟨h3, h1⟩
    · exact ih _ h4 e he

/-- The result of the first loop of `amend` on a chain through `x`, whatever the fuel:
if it is a list, it is the list of the commits above `x`. -/
theorem amendCollect_ok_eq (E : Env) (s : Table) (x : String) (c : Objects.Commit)
    (l₁ l₂ : List (String × Objects.Commit)) (fuel : Nat) (id : String)
    (olds : List (String × Objects.Commit))
    (h : IsChain E s id (l₁ ++ (x, c) :: l₂))
    (hok : amendCollect E s x fuel id = .ok olds) : olds = l₁ := by
  have hne := IsChain_ids_ne E s id x c l₁ l₂ h
  induction l₁ generalizing id fuel olds with
  | nil =>
    have hx : x = id := h.2.1
    subst hx
    rw [amendCollect_self] at hok
    cases hok
    rfl
  | cons e0 t ih =>
    obtain ⟨_, hid, hg, hc⟩ := h
    have hidx : id ≠ x := by
      rw [← hid]; exact hne e0 (by simp)
    cases fuel with
    | zero => simp [amendCollect, hidx] at hok
    | succ f =>
      simp only [amendCollect, hidx, if_false, hg] at hok
      cases hrec : amendCollect E s x f e0.2.parent with
      | error e => simp [hrec] at hok
      | ok olds' =>
        simp only [hrec, Except.ok.injEq] at hok
        have := ih f e0.2.parent olds' hc hrec (fun e he => hne e (by simp [he]))
        subst this
        rw [← hok, ← hid]

/-- The rewrite of `amend` gives every rewritten commit an id different from the id of the
commit it replaces, when the amended commit has an id different from the old one. -/
theorem amendRewrite_cascade (E : Env) (hinj : E.CollisionFree) (hrt : E.CommitRoundTrip)
    (hne : E.DigestNotEmptyRef) (newid x : String) (s : Table) (hwf : StoreWF E s)
    (base : List (String × Objects.Commit)) (hbase : IsChain E s newid base)
    (hx : newid ≠ x) (old : Objects.Commit) (anc : List (String × Objects.Commit))
    (olds : List (String × Objects.Commit)) (id : String)
    (hchain : IsChain E s id (olds ++ (x, old) :: anc)) :
    ∃ rewritten : List (String × Objects.Commit),
      Table.le s (amendRewrite E newid s olds).2
      ∧ StoreWF E (amendRewrite E newid s olds).2
      ∧ IsChain E (amendRewrite E newid s olds).2 (amendRewrite E newid s olds).1
          (rewritten ++ base)
      ∧ List.Forall₂ (fun o w => w.1 ≠ o.1) olds rewritten
      ∧ (amendRewrite E newid s olds).1 ≠ id := by
  induction olds generalizing id with
  | nil =>
    have hid : x = id := hchain.2.1
    exact ⟨[], fun _ _ h => h, hwf, hbase, List.Forall₂.nil, by rw [← hid]; exact hx⟩
  | cons e older ih =>
    obtain ⟨i, c⟩ := e
    obtain ⟨_, hid, hg, hc⟩ := hchain
    obtain ⟨rw', hle, hwf', hch, hfa, hlast⟩ := ih c.parent hc
    have hdiff : (Objects.WriteCommit E (amendRewrite E newid s older).2
        { c with parent := (amendRewrite E newid s older).1 }).1 ≠ id := by
      intro heq
      unfold Objects.GetCommit at hg
      cases hf : s.find id with
      | none => simp [hf] at hg
      | some b =>
        rw [hf] at hg
        have h1 : id = E.SHA1sum b := hwf id b hf
        have h2 : E.SHA1sum
            (E.serializeCommit { c with parent := (amendRewrite E newid s older).1 })
            = E.SHA1sum b := heq.trans h1
        have h3 := hinj _ _ h2
        have h4 := hrt { c with parent := (amendRewrite E newid s older).1 }
        rw [h3] at h4
        have hg' : E.parseCommit b = some c := hg
        rw [hg'] at h4
        have h5 := congrArg Objects.Commit.parent (Option.some.inj h4)
        exact hlast h5.symm
    refine ⟨((Objects.WriteCommit E (amendRewrite E newid s older).2
        { c with parent := (amendRewrite E newid s older).1 }).1,
        { c with parent := (amendRewrite E newid s older).1 }) :: rw', ?_, ?_, ?_, ?_, hdiff⟩
    · exact Table.le_trans _ _ _ hle (put_le E hinj _ hwf' _)
    · exact put_wf E _ hwf' _
    · refine ⟨hne _, rfl, GetCommit_WriteCommit E hrt _ _, ?_⟩
      exact IsChain_mono E _ _ (put_le E hinj _ hwf' _) _ _ hch
    · refine List.Forall₂.cons ?_ hfa
      have hid' : i = id := hid
      simp only
      rw [hid']
      exact hdiff

theorem suffix_last (α : Type) (P l A : List α) (z : α) (hl : l ≠ [])
    (h : P ++ l = A ++ [z]) : ∃ l', l = l' ++ [z] := by
  refine ⟨l.dropLast, ?_⟩
  have h1 : l = l.dropLast ++ [l.getLast hl] := (List.dropLast_append_getLast hl).symm
  rw [h1, ← List.append_assoc] at h
  have := (List.append_inj' h (by simp)).2
  simp only [List.cons.injEq, and_true] at this
  rw [← this]
  exact h1

/-- Two chains of one object directory that end in the same ancestors below two different
ids have no id in common above those ancestors. -/
theorem chains_disjoint (E : Env) (s : Table) (A B anc : List (String × Objects.Commit))
    (x y : String) (cx cy : Objects.Commit) (idA idB : String)
    (hA : IsChain E s idA (A ++ (x, cx) :: anc)) (hB : IsChain E s idB (B ++ (y, cy) :: anc))
    (hxy : x ≠ y) :
    ∀ e ∈ A ++ [(x, cx)], ∀ w ∈ B ++ (y, cy) :: anc, w.1 ≠ e.1 := by
  intro e he w hw hwe
  obtain ⟨A1, A2, hA12⟩ := List.append_of_mem he
  obtain ⟨B1, B2, hB12⟩ := List.append_of_mem hw
  have hA' : A ++ (x, cx) :: anc = A1 ++ (e.1, e.2) :: (A2 ++ anc) := by
    have : A ++ (x, cx) :: anc = (A ++ [(x, cx)]) ++ anc := by simp
    rw [this, hA12]
    simp
  have hB' : B ++ (y, cy) :: anc = B1 ++ (w.1, w.2) :: B2 := by
    rw [hB12]
  rw [hA'] at hA
  rw [hB'] at hB
  have h1 := IsChain_suffix E s idA e.1 e.2 A1 (A2 ++ anc) hA
  have h2 := IsChain_suffix E s idB w.1 w.2 B1 B2 hB
  rw [hwe] at h2
  have heq := IsChain_unique E s e.1 _ _ h1 h2
  obtain ⟨l', hl'⟩ := suffix_last _ A1 (e :: A2) A (x, cx) (by simp) hA12.symm
  have hfull : B ++ (y, cy) :: anc = (B1 ++ l') ++ (x, cx) :: anc := by
    rw [hB']
    have : (w.1, w.2) :: B2 = (e.1, e.2) :: (A2 ++ anc) := by rw [hwe]; exact heq.symm
    rw [this]
    have h3 : (e.1, e.2) :: (A2 ++ anc) = (e :: A2) ++ anc := by simp
    rw [h3, hl']
    simp
  have := (List.append_inj' hfull (by simp)).2
  simp only [List.cons.injEq, Prod.mk.injEq, and_true] at this
  exact hxy this.1.symm

/-- C18: identity cascade under amend.  The digest is collision free and never `EMPTY_REF`,
parsing a serialized commit gives it back (so the id of a commit determines its fields), and
every object is stored under its digest.  The walk from master reads `newer`, then the commit
`old` at HEAD, then `ancestors`.  If `Commit (msg, true)` succeeds and the new HEAD differs
from the old one, then the walk from the new master reads as many rewritten commits, the new
commit and the same ancestors; every rewritten commit has an id different from the id of the
commit it replaces, and the new master differs from the old master; every object of the old
store is in the new store with the same content, so the old commit at HEAD and every
superseded commit can still be read; and none of their ids is the id of a commit on the walk
from the new master. -/
theorem Commit_amend_cascade (E : Env) (hinj : E.CollisionFree) (hrt : E.CommitRoundTrip)
    (hne : E.DigestNotEmptyRef) (fuel n : Nat) (datetime msg : String) (r r' : Repo)
    (newer ancestors : List (String × Objects.Commit)) (old : Objects.Commit)
    (hwf : StoreWF E r.objects)
    (hchain : Log E r.objects n r.master = some (newer ++ (r.HEAD, old) :: ancestors))
    (hrun : Commit E fuel datetime msg true r = (.ok, r'))
    (hdiff : r'.HEAD ≠ r.HEAD) :
    ∃ (newCommit : Objects.Commit) (rewritten : List (String × Objects.Commit)),
      Log E r'.objects n r'.master = some (rewritten ++ (r'.HEAD, newCommit) :: ancestors)
      ∧ List.Forall₂ (fun o w => w.1 ≠ o.1) newer rewritten
      ∧ r'.master ≠ r.master
      ∧ Table.le r.objects r'.objects
      ∧ ∀ e ∈ newer ++ [(r.HEAD, old)],
          Objects.GetCommit E r'.objects e.1 = some e.2
          ∧ ∀ w ∈ rewritten ++ (r'.HEAD, newCommit) :: ancestors, w.1 ≠ e.1 := by
  obtain ⟨hch, hlen⟩ := (Log_eq_some_iff E _ _ _ _).1 hchain
  obtain ⟨old', nc, olds, hget', hpar', hcol, hr'⟩ := Commit_amend_inv E fuel datetime msg r r' hrun
  have hold := IsChain_suffix E _ _ _ _ _ _ hch
  obtain ⟨_, _, hget, hanc⟩ := hold
  simp only at hget hanc
  have hoo : old' = old := Option.some.inj (hget'.symm.trans hget)
  subst hoo
  have hle1 := put_le E hinj r.objects hwf (E.serializeIndex r.index)
  have hwf1 := put_wf E r.objects hwf (E.serializeIndex r.index)
  have hle2 := put_le E hinj _ hwf1 (E.serializeCommit nc)
  have hwf2 := put_wf E _ hwf1 (E.serializeCommit nc)
  have hle := Table.le_trans _ _ _ hle1 hle2
  have hch2 := IsChain_mono E _ _ hle _ _ hch
  have holds := amendCollect_ok_eq E _ r.HEAD old' newer ancestors fuel r.master olds hch2 hcol
  subst holds
  have hbase : IsChain E (Objects.WriteCommit E (Objects.WriteIndex E r.objects r.index).2 nc).2
      (Objects.WriteCommit E (Objects.WriteIndex E r.objects r.index).2 nc).1
      (((Objects.WriteCommit E (Objects.WriteIndex E r.objects r.index).2 nc).1, nc)
        :: ancestors) := by
    refine ⟨hne _, rfl, GetCommit_WriteCommit E hrt _ _, ?_⟩
    simp only [hpar']
    exact IsChain_mono E _ _ hle _ _ hanc
  have hH : r'.HEAD = (Objects.WriteCommit E (Objects.WriteIndex E r.objects r.index).2 nc).1 := by
    rw [hr']
  have hM : r'.master = (amendRewrite E
      (Objects.WriteCommit E (Objects.WriteIndex E r.objects r.index).2 nc).1
      (Objects.WriteCommit E (Objects.WriteIndex E r.objects r.index).2 nc).2 olds).1 := by
    rw [hr']
  have hO : r'.objects = (amendRewrite E
      (Objects.WriteCommit E (Objects.WriteIndex E r.objects r.index).2 nc).1
      (Objects.WriteCommit E (Objects.WriteIndex E r.objects r.index).2 nc).2 olds).2 := by
    rw [hr']
  obtain ⟨rewritten, hle3, _, hfinal, hfa, hlast⟩ :=
    amendRewrite_cascade E hinj hrt hne _ r.HEAD _ hwf2 _ hbase (by rw [← hH]; exact hdiff)
      old' ancestors olds r.master hch2
  have hfinal : IsChain E r'.objects r'.master (rewritten ++ (r'.HEAD, nc) :: ancestors) := by
    rw [hO, hM, hH]; exact hfinal
  have hlast : r'.master ≠ r.master := by rw [hM]; exact hlast
  have hle3 : Table.le (Objects.WriteCommit E (Objects.WriteIndex E r.objects r.index).2 nc).2
      r'.objects := by rw [hO]; exact hle3
  have hleAll : Table.le r.objects r'.objects := Table.le_trans _ _ _ hle hle3
  have hchOld : IsChain E r'.objects r.master (olds ++ (r.HEAD, old') :: ancestors) :=
    IsChain_mono E _ _ hleAll _ _ hch
  refine ⟨nc, rewritten, ?_, hfa, hlast, hleAll, ?_⟩
  · apply (Log_eq_some_iff E _ _ _ _).2
    refine ⟨hfinal, ?_⟩
    have := hfa.length_eq
    simp only [List.length_append, List.length_cons] at hlen ⊢
    omega
  · intro e he
    refine ⟨?_, ?_⟩
    · exact (IsChain_mem_get E _ _ _ hchOld e (by
        rcases List.mem_append.1 he with h | h
        · exact List.mem_append_left _ h
        · exact List.mem_append_right _ (by
            rw [List.mem_singleton.1 h]; exact List.mem_cons_self _ _))).1
    · exact chains_disjoint E _ olds rewritten ancestors r.HEAD r'.HEAD old' nc r.master
        r'.master hchOld hfinal (fun h => hdiff h.symm) e he

set_option maxRecDepth 100000 in
/-- C18 (witness): the history `c1 ← c2` with HEAD at `c1`, amended with the message
`m2`. -/
theorem Commit_amend_cascade_witness :
    ∃ (newCommit : Objects.Commit) (rewritten : List (String × Objects.Commit)),
      Log Demo.env (Commit Demo.env 1 "d" "m2" true Demo.detached).2.objects 2
          (Commit Demo.env 1 "d" "m2" true Demo.detached).2.master
        = some (rewritten ++
            [((Commit Demo.env 1 "d" "m2" true Demo.detached).2.HEAD, newCommit)])
      ∧ List.Forall₂ (fun o w => w.1 ≠ o.1) [(Demo.id2, Demo.c2)] rewritten
      ∧ (Commit Demo.env 1 "d" "m2" true Demo.detached).2.master ≠ Demo.detached.master
      ∧ Table.le Demo.detached.objects (Commit Demo.env 1 "d" "m2" true Demo.detached).2.objects
      ∧ ∀ e ∈ [(Demo.id2, Demo.c2)] ++ [(Demo.detached.HEAD, Demo.c1)],
          Objects.GetCommit Demo.env (Commit Demo.env 1 "d" "m2" true Demo.detached).2.objects
              e.1 = some e.2
          ∧ ∀ w ∈ rewritten ++
              [((Commit Demo.env 1 "d" "m2" true Demo.detached).2.HEAD, newCommit)],
              w.1 ≠ e.1 :=
  Commit_amend_cascade Demo.env Demo.env_collisionFree Demo.env_commitRoundTrip
    Demo.env_digestNotEmptyRef 1 2 "d" "m2" Demo.detached
    (Commit Demo.env 1 "d" "m2" true Demo.detached).2 [(Demo.id2, Demo.c2)] []
    Demo.c1 Demo.detached_wf (by decide) (by decide) (by decide)

/-! ## `amend`: the walk -/

theorem Demo.offchain_wf : StoreWF Demo.env Demo.offchain.objects :=
  StoreWF_of_forall _ _ (by decide)

theorem GetCommit_EMPTY_REF (E : Env) (hne : E.DigestNotEmptyRef) (s : Table)
    (hwf : StoreWF E s) : Objects.GetCommit E s E.EMPTY_REF = none := by
  unfold Objects.GetCommit
  cases hf : s.find E.EMPTY_REF with
  | none => rfl
  | some b => exact absurd (hwf _ _ hf).symm (hne b)

theorem amendReads_chain (E : Env) (s : Table) (x : String) (c : Objects.Commit)
    (l₁ l₂ : List (String × Objects.Commit)) (fuel : Nat) (id : String)
    (h : IsChain E s id (l₁ ++ (x, c) :: l₂)) (hfuel : l₁.length ≤ fuel) :
    amendReads E s x fuel id = l₁.map Prod.fst := by
  have hne := IsChain_ids_ne E s id x c l₁ l₂ h
  induction l₁ generalizing id fuel with
  | nil =>
    have hx : x = id := h.2.1
    subst hx
    cases fuel <;> simp [amendReads]
  | cons e0 t ih =>
    obtain ⟨_, hid, hg, hc⟩ := h
    have hidx : id ≠ x := by
      rw [← hid]; exact hne e0 (by simp)
    cases fuel with
    | zero => simp at hfuel
    | succ f =>
      simp only [amendReads, hidx, if_false, hg, List.map_cons, hid]
      rw [ih f e0.2.parent hc (by simpa using hfuel) (fun e he => hne e (by simp [he]))]

theorem amendCollect_timeout (E : Env) (s : Table) (x : String) (c : Objects.Commit)
    (l₁ l₂ : List (String × Objects.Commit)) (fuel : Nat) (id : String)
    (h : IsChain E s id (l₁ ++ (x, c) :: l₂)) (hfuel : fuel < l₁.length) :
    amendCollect E s x fuel id = .error .timeout := by
  have hne := IsChain_ids_ne E s id x c l₁ l₂ h
  induction l₁ generalizing id fuel with
  | nil => simp at hfuel
  | cons e0 t ih =>
    obtain ⟨_, hid, hg, hc⟩ := h
    have hidx : id ≠ x := by
      rw [← hid]; exact hne e0 (by simp)
    cases fuel with
    | zero => simp [amendCollect, hidx]
    | succ f =>
      simp only [amendCollect, hidx, if_false, hg]
      rw [ih f e0.2.parent hc (by simpa using hfuel) (fun e he => hne e (by simp [he]))]

/-- The first loop of `amend` on a chain that does not go through `x`: every commit of the
chain is read, then `EMPTY_REF`, and that read fails. -/
theorem amend_off_chain (E : Env) (s : Table) (x : String)
    (l : List (String × Objects.Commit)) (fuel : Nat) (id : String)
    (h : IsChain E s id l) (hoff : ∀ e ∈ l, e.1 ≠ x) (hx : x ≠ E.EMPTY_REF)
    (hempty : Objects.GetCommit E s E.EMPTY_REF = none) (hfuel : l.length < fuel) :
    amendCollect E s x fuel id = .error .ioError
      ∧ amendReads E s x fuel id = l.map Prod.fst ++ [E.EMPTY_REF] := by
  induction l generalizing id fuel with
  | nil =>
    have hid : id = E.EMPTY_REF := h
    subst hid
    cases fuel with
    | zero => simp at hfuel
    | succ f => simp [amendCollect, amendReads, hempty, Ne.symm hx]
  | cons e0 t ih =>
    obtain ⟨_, hid, hg, hc⟩ := h
    have hidx : id ≠ x := by
      rw [← hid]; exact hoff e0 (by simp)
    cases fuel with
    | zero => simp at hfuel
    | succ f =>
      obtain ⟨h1, h2⟩ := ih f e0.2.parent hc (fun e he => hoff e (by simp [he]))
        (by simpa using hfuel)
      simp only [amendCollect, amendReads, hidx, if_false, hg, h1, h2, List.map_cons, hid,
        List.cons_append, and_self]

theorem amend_eq_of_error (E : Env) (fuel : Nat) (oldid newid : String) (r : Repo)
    (e : Outcome) (h : amendCollect E r.objects oldid fuel r.master = .error e) :
    amend E fuel oldid newid r = (e, r) := by
  simp [amend, h]

/-- C20: termination and safety of the walk of `amend`.  Every object is stored under its
digest, the digest is collision free and never `EMPTY_REF`, and the walk from master reads
`chain` and arrives at `EMPTY_REF`.
When the chain is `newer`, then the commit of `oldid`, then `ancestors`: with fuel for
`newer` the first loop of `amend (oldid, newid)` ends normally with `newer`, the ids it reads
are those of `newer`, newest first, and neither `oldid` nor `EMPTY_REF` is among them; with
less fuel the loop is cut short.
When `oldid` is not `EMPTY_REF` and not the id of a commit of the chain: with fuel for one
read more than the chain, the loop reads every commit of the chain, then tries to read
`EMPTY_REF`, and `amend` ends with that failure in an unchanged state.
When HEAD is not the id of a commit of the chain, `Commit (msg, true)` does not return
normally, with HEAD and master as before, and it ends with the failed read whenever the
message, the identity and the commit at HEAD are there. -/
theorem amend_walk (E : Env) (hinj : E.CollisionFree) (hne : E.DigestNotEmptyRef) (r : Repo)
    (hwf : StoreWF E r.objects) (n : Nat) (chain : List (String × Objects.Commit))
    (hchain : Log E r.objects n r.master = some chain) :
    (∀ oldid newer old ancestors, chain = newer ++ (oldid, old) :: ancestors →
        (∀ fuel, newer.length ≤ fuel →
          amendCollect E r.objects oldid fuel r.master = .ok newer
          ∧ amendReads E r.objects oldid fuel r.master = newer.map Prod.fst)
        ∧ (∀ fuel, fuel < newer.length →
          amendCollect E r.objects oldid fuel r.master = .error .timeout)
        ∧ oldid ∉ newer.map Prod.fst ∧ E.EMPTY_REF ∉ newer.map Prod.fst)
    ∧ (∀ oldid, (∀ e ∈ chain, e.1 ≠ oldid) → oldid ≠ E.EMPTY_REF →
        ∀ fuel newid, chain.length < fuel →
          amendReads E r.objects oldid fuel r.master = chain.map Prod.fst ++ [E.EMPTY_REF]
          ∧ amend E fuel oldid newid r = (.ioError, r))
    ∧ ((∀ e ∈ chain, e.1 ≠ r.HEAD) → ∀ fuel datetime msg, chain.length < fuel →
        (Commit E fuel datetime msg true r).1 ≠ .ok
        ∧ (Commit E fuel datetime msg true r).2.HEAD = r.HEAD
        ∧ (Commit E fuel datetime msg true r).2.master = r.master
        ∧ (∀ text old, r.COMMIT_MSG = some text →
            (if msg = "" then getCommitMessage text else msg) ≠ "" →
            Config.Get E r.config "user.name" ≠ E.NOT_FOUND →
            Config.Get E r.config "user.email" ≠ E.NOT_FOUND →
            Objects.GetCommit E r.objects r.HEAD = some old →
            (Commit E fuel datetime msg true r).1 = .ioError)) := by
  obtain ⟨hch, hlen⟩ := (Log_eq_some_iff E _ _ _ _).1 hchain
  have hempty := GetCommit_EMPTY_REF E hne r.objects hwf
  refine ⟨?_, ?_, ?_⟩
  · intro oldid newer old ancestors hsplit
    subst hsplit
    refine ⟨fun fuel hf => ⟨amendCollect_chain E _ _ _ _ _ _ _ hch hf,
      amendReads_chain E _ _ _ _ _ _ _ hch hf⟩,
      fun fuel hf => amendCollect_timeout E _ _ _ _ _ _ _ hch hf, ?_, ?_⟩
    · intro hmem
      obtain ⟨e, he, heq⟩ := List.mem_map.1 hmem
      exact IsChain_ids_ne E _ _ _ _ _ _ hch e he heq
    · intro hmem
      obtain ⟨e, he, heq⟩ := List.mem_map.1 hmem
      exact (IsChain_mem_get E _ _ _ hch e (List.mem_append_left _ he)).2 heq
  · intro oldid hoff hx fuel newid hf
    obtain ⟨h1, h2⟩ := amend_off_chain E _ oldid chain fuel r.master hch hoff hx hempty hf
    exact ⟨h2, amend_eq_of_error E fuel oldid newid r _ h1⟩
  · intro hoff fuel datetime msg hf
    have hle1 := put_le E hinj r.objects hwf (E.serializeIndex r.index)
    have hwf1 := put_wf E r.objects hwf (E.serializeIndex r.index)
    have hcol : ∀ nc : Objects.Commit, r.HEAD ≠ E.EMPTY_REF →
        amendCollect E (Objects.WriteCommit E (Objects.WriteIndex E r.objects r.index).2 nc).2
          r.HEAD fuel r.master = .error .ioError := by
      intro nc hx
      have hle2 := put_le E hinj _ hwf1 (E.serializeCommit nc)
      have hwf2 := put_wf E _ hwf1 (E.serializeCommit nc)
      exact (amend_off_chain E _ r.HEAD chain fuel r.master
        (IsChain_mono E _ _ (Table.le_trans _ _ _ hle1 hle2) _ _ hch) hoff hx
        (GetCommit_EMPTY_REF E hne _ hwf2) hf).1
    have hhead : ∀ old, Objects.GetCommit E r.objects r.HEAD = some old →
        r.HEAD ≠ E.EMPTY_REF := by
      intro old hg hx
      rw [hx, hempty] at hg
      cases hg
    have hnot : (Commit E fuel datetime msg true r).1 ≠ .ok := by
      intro hok
      have hrun : Commit E fuel datetime msg true r
          = (.ok, (Commit E fuel datetime msg true r).2) := by
        rw [← hok]
      obtain ⟨old, nc, olds, hget, _, hc, _⟩ := Commit_amend_inv E fuel datetime msg r _ hrun
      rw [hcol nc (hhead old hget)] at hc
      cases hc
    refine ⟨hnot, (Commit_not_ok_refs E fuel datetime msg true r hnot).1,
      (Commit_not_ok_refs E fuel datetime msg true r hnot).2, ?_⟩
    intro text old hfile hmsg hname hemail hget
    simp only [Commit, hfile, hmsg, hname, hemail, hget, Bool.true_eq_false, and_false,
      if_false, Option.map_some']
    rw [amend_eq_of_error E fuel r.HEAD _ _ .ioError (hcol _ (hhead old hget))]

set_option maxRecDepth 100000 in
/-- C20 (witness): master has the history `c1 ← c2` and HEAD is at `c3`, which is not on it.
The walk for `c1` reads `c2` only; the walk for `c3` reads `c2`, `c1` and then `EMPTY_REF`,
and the amending commit ends with the failed read, HEAD and master as before. -/
theorem amend_walk_witness :
    (amendCollect Demo.env Demo.offchain.objects Demo.id1 1 Demo.offchain.master
        = .ok [(Demo.id2, Demo.c2)]
      ∧ amendReads Demo.env Demo.offchain.objects Demo.id1 1 Demo.offchain.master
        = [Demo.id2])
    ∧ (amendReads Demo.env Demo.offchain.objects Demo.id3 3 Demo.offchain.master
        = [Demo.id2, Demo.id1, "0"]
      ∧ amend Demo.env 3 Demo.id3 "new" Demo.offchain = (.ioError, Demo.offchain))
    ∧ (Commit Demo.env 3 "d" "m2" true Demo.offchain).1 = .ioError
    ∧ (Commit Demo.env 3 "d" "m2" true Demo.offchain).2.HEAD = Demo.id3
    ∧ (Commit Demo.env 3 "d" "m2" true Demo.offchain).2.master = Demo.id2 :=
  have h := amend_walk Demo.env Demo.env_collisionFree Demo.env_digestNotEmptyRef
    Demo.offchain Demo.offchain_wf 2 [(Demo.id2, Demo.c2), (Demo.id1, Demo.c1)] (by decide)
  have hc := h.2.2 (by decide) 3 "d" "m2" (by decide)
  ⟨(h.1 Demo.id1 [(Demo.id2, Demo.c2)] Demo.c1 [] rfl).1 1 (by decide),
   h.2.1 Demo.id3 (by decide) (by decide) 3 "new" (by decide),
   hc.2.2.2 "" Demo.c3 rfl (by decide) (by decide) (by decide) (by decide),
   hc.2.1, hc.2.2.1⟩

end Sit
